import Mathlib

/-!
Verification development for the `walkdir2` directory-traversal engine.

We shallowly embed the traversal core (`src/walk/walk.rs`, `src/walk/dir.rs`,
`src/walk/rawdent.rs`, `src/walk/opts.rs`) in Lean.  The platform filesystem
adapter is modelled as data: a filesystem is a total map from node ids to node
descriptors whose fallible adapter calls (`file_type`, `read_dir`,
`fingerprint`, `device_num`) are recorded as `Except`-valued attributes, which
lets us exercise every error path of the engine.  Paths are node ids.

The open-handle counter (`opened_count: usize` in the source) is modelled as
`Int`; the development proves it always equals the number of `Opened` handles
on the stack, hence stays nonnegative, so truncation/wrapping of the machine
integer never occurs.

Rust panics (`unreachable!`, `assert!`, `.unwrap()`) are modelled explicitly:
model functions that can panic return `Option`, and the engine step emits a
`panic` outcome when the source would panic.
-/

set_option maxHeartbeats 1000000
set_option linter.unusedVariables false
set_option linter.unreachableTactic false
set_option linter.unusedTactic false

namespace Walkdir2

/-! ## Filesystem adapter model (`src/fs`) -/

/-- File type as used by the engine: `is_dir` / `is_symlink` flags. -/
inductive FileType where
  | dir
  | file
  | symlink
  deriving DecidableEq, Repr

def FileType.is_dir : FileType → Bool
  | .dir => true
  | _ => false

def FileType.is_symlink : FileType → Bool
  | .symlink => true
  | _ => false

/-- One platform entry yielded by a read-dir handle: either a well-formed
child node or an injected I/O error (`rd.next_entry()` returning `Err`). -/
inductive ChildSpec where
  | ok (id : Nat)
  | ioerr
  deriving DecidableEq, Repr

/-- A filesystem node: the results of every adapter call the engine may make
on the corresponding entry.  `Except Unit` records fallibility. -/
structure Node where
  /-- `file_type(follow=false)`: the type of the entry itself. -/
  ty : Except Unit FileType
  /-- `file_type(follow=true)`: the type of the symlink target. -/
  tyFollow : Except Unit FileType
  /-- `read_dir(entry)`: the platform listing, or failure to open. -/
  readDir : Except Unit (List ChildSpec)
  /-- `fingerprint(entry)`: directory identity token. -/
  fingerprint : Except Unit Nat
  /-- `device_num(entry)`. -/
  deviceNum : Except Unit Nat
  deriving Repr

/-- The filesystem: a total map from node ids to nodes, plus an injection
point for `RootDirEntry::from_path` failure. -/
structure Fs where
  node : Nat → Node
  rootErr : Bool

/-! ## Error model (`src/error.rs`) -/

/-- `ErrorInner`: I/O error with optional path, or a symlink loop. -/
inductive ErrorInner where
  | io (path : Option Nat)
  | loopErr (ancestor : Nat) (child : Nat)
  deriving DecidableEq, Repr

/-- `Error`: an `ErrorInner` together with the depth it was produced at. -/
structure WdError where
  inner : ErrorInner
  depth : Nat
  deriving DecidableEq, Repr

/-! ## Raw directory entry (`src/walk/rawdent.rs`, `RawDirEntry`) -/

/-- `RawDirEntryKind`: root entry or child entry. -/
inductive RawKind where
  | root
  | child
  deriving DecidableEq, Repr

/-- `RawDirEntry`: node id (standing for the adapter entry and its path),
kind, follow-link flag and cached file type. -/
structure RawDent where
  id : Nat
  kind : RawKind
  followLink : Bool
  ty : FileType
  deriving DecidableEq, Repr

namespace RawDent

def is_symlink (r : RawDent) : Bool := r.ty.is_symlink

def is_dir (r : RawDent) : Bool := r.ty.is_dir

/-- `path()` / `pathbuf()`: in the model a path is the node id. -/
def path (r : RawDent) : Nat := r.id

/-- `RawDirEntry::from_path`: construct the root raw entry.  Fails when the
root adapter entry cannot be constructed or its `file_type(false)` fails. -/
def from_path (fs : Fs) (p : Nat) : Except ErrorInner RawDent :=
  if fs.rootErr then
    .error (.io (some p))
  else
    match (fs.node p).ty with
    | .error _ => .error (.io (some p))
    | .ok ty => .ok { id := p, kind := .root, followLink := false, ty }

/-- `RawDirEntry::from_fsdent`: wrap a child adapter entry, caching its
`file_type(false)`. -/
def from_fsdent (fs : Fs) (i : Nat) : Except ErrorInner RawDent :=
  match (fs.node i).ty with
  | .error _ => .error (.io none)
  | .ok ty => .ok { id := i, kind := .child, followLink := false, ty }

/-- `RawDirEntry::file_type_follow`: type at the target of the symlink. -/
def file_type_follow (fs : Fs) (r : RawDent) : Except ErrorInner FileType :=
  match (fs.node r.id).tyFollow with
  | .error _ => .error (.io (some r.id))
  | .ok ty => .ok ty

/-- `RawDirEntry::follow`: same entry with `follow_link = true` and the type
refreshed through the target. -/
def follow (fs : Fs) (r : RawDent) : Except ErrorInner RawDent :=
  match r.file_type_follow fs with
  | .error e => .error e
  | .ok ty => .ok { r with followLink := true, ty }

/-- `RawDirEntry::fingerprint`. -/
def fingerprint (fs : Fs) (r : RawDent) : Except ErrorInner Nat :=
  match (fs.node r.id).fingerprint with
  | .error _ => .error (.io none)
  | .ok fp => .ok fp

/-- `RawDirEntry::device_num`. -/
def device_num (fs : Fs) (r : RawDent) : Except ErrorInner Nat :=
  match (fs.node r.id).deviceNum with
  | .error _ => .error (.io none)
  | .ok d => .ok d

end RawDent

/-! ## Options (`src/walk/opts.rs`, `WalkDirOptionsImmut`) -/

/-- `ContentFilter`. -/
inductive ContentFilter where
  | none
  | filesOnly
  | dirsOnly
  | skipAll
  deriving DecidableEq, Repr

/-- `ContentOrder`. -/
inductive ContentOrder where
  | none
  | filesFirst
  | dirsFirst
  deriving DecidableEq, Repr

/-- `WalkDirOptionsImmut`.  `usize::MAX` is modelled as `2^64 - 1`. -/
structure Opts where
  same_file_system : Bool
  follow_links : Bool
  yield_loop_links : Bool
  max_open : Option Nat
  min_depth : Nat
  max_depth : Nat
  contents_first : Bool
  content_filter : ContentFilter
  content_order : ContentOrder
  yield_open_dir_with_content : Bool
  open_dir_with_content_filter : ContentFilter
  deriving Repr

def usizeMax : Nat := 2 ^ 64 - 1

/-- `WalkDirOptionsImmut::default`. -/
def Opts.default : Opts where
  same_file_system := false
  follow_links := false
  yield_loop_links := false
  max_open := some 10
  min_depth := 0
  max_depth := usizeMax
  contents_first := false
  content_filter := .none
  content_order := .none
  yield_open_dir_with_content := false
  open_dir_with_content_filter := .none

/-! ## Builder (`src/walk/opts.rs`, `WalkDirBuilder`)

Each builder method mutates the options record; we model a builder call
sequence as a list of operations folded over the default record. -/

/-- One builder call (the option-mutating methods of `WalkDirBuilder`). -/
inductive BuilderOp where
  | same_file_system (yes : Bool)
  | follow_links (yes : Bool)
  | yield_loop_links (yes : Bool)
  | min_depth (depth : Nat)
  | max_depth (depth : Nat)
  | max_open (n : Nat)
  | contents_first (yes : Bool)
  | content_filter (f : ContentFilter)
  | content_order (o : ContentOrder)
  | yield_open_dir_with_content (yes : Bool)
  | open_dir_with_content_filter (f : ContentFilter)
  deriving Repr

/-- Apply one builder call, mirroring the corresponding method body. -/
def applyBuilderOp (o : Opts) : BuilderOp → Opts
  | .same_file_system yes => { o with same_file_system := yes }
  | .follow_links yes => { o with follow_links := yes }
  | .yield_loop_links yes => { o with yield_loop_links := yes }
  | .min_depth depth =>
      let o := { o with min_depth := depth }
      if o.min_depth > o.max_depth then { o with min_depth := o.max_depth } else o
  | .max_depth depth =>
      let o := { o with max_depth := depth }
      if o.max_depth < o.min_depth then { o with max_depth := o.min_depth } else o
  | .max_open n => { o with max_open := if n > 0 then some n else none }
  | .contents_first yes => { o with contents_first := yes }
  | .content_filter f => { o with content_filter := f }
  | .content_order ord => { o with content_order := ord }
  | .yield_open_dir_with_content yes => { o with yield_open_dir_with_content := yes }
  | .open_dir_with_content_filter f => { o with open_dir_with_content_filter := f }

/-- A full builder call sequence starting from the defaults. -/
def buildOpts (ops : List BuilderOp) : Opts :=
  ops.foldl applyBuilderOp Opts.default

/-! ## Content processor model (`src/cp`)

The engine treats the content processor abstractly: `make_content_item` may
fail (returning `None`), `allow_push` gates descent.  We model items as the
tuple of arguments passed to the processor and let success / descent be
arbitrary boolean functions of those arguments. -/

/-- A user-visible item: the data the processor receives for an entry. -/
structure Item where
  id : Nat
  followLink : Bool
  isDir : Bool
  depth : Nat
  deriving DecidableEq, Repr

/-- Content-processor model: success predicate of `make_content_item`
(`process_direntry` / `process_root_direntry`) and the `allow_push` gate. -/
structure CP where
  mkOk : Nat → Bool → Bool → Nat → Bool
  allowPush : Nat → Bool

/-- `RawDirEntry::make_content_item`. -/
def RawDent.make_content_item (cp : CP) (r : RawDent) (isDir : Bool) (depth : Nat) :
    Option Item :=
  if cp.mkOk r.id r.followLink isDir depth then
    some { id := r.id, followLink := r.followLink, isDir := isDir, depth := depth }
  else
    none

/-- `RawDirEntry::allow_push`: always true for root entries. -/
def RawDent.allow_push (cp : CP) (r : RawDent) : Bool :=
  match r.kind with
  | .root => true
  | .child => cp.allowPush r.id

end Walkdir2

namespace Walkdir2

/-! ## Flat entries and directory records (`src/walk/dir.rs`) -/

/-- `FlatDirEntry`: raw entry plus the decision bits computed by the
per-entry processor. -/
structure FlatDent where
  raw : RawDent
  is_dir : Bool
  loop_link : Option Nat
  deriving DecidableEq, Repr

instance {ε α : Type} [DecidableEq ε] [DecidableEq α] : DecidableEq (Except ε α) := by
  intro a b
  cases a <;> cases b
  case error.error e f => exact decidable_of_iff (e = f) (by simp)
  case ok.ok x y => exact decidable_of_iff (x = y) (by simp)
  all_goals exact .isFalse (by simp)

/-- `DirEntryRecord`: a processed entry (or a deferred error) plus the
emission bits `first_pass` and `hidden`. -/
structure DirRec where
  flat : Except ErrorInner FlatDent
  first_pass : Bool
  hidden : Bool
  deriving DecidableEq, Repr

/-- The per-entry processing function handed down by the engine
(`process_dent!`): maps a raw entry to a flat entry, an error, or a silent
rejection (`None`). -/
abbrev ProcessFn := RawDent → Option (Except ErrorInner FlatDent)

/-- `DirEntryRecord::new`: run the processor, then compute `first_pass` from
the content order and `hidden` from the content filter. -/
def DirRec.new (opts : Opts) (process : ProcessFn) (r : Except ErrorInner RawDent) :
    Option DirRec :=
  let r_flat : Except ErrorInner FlatDent ⊕ Unit :=
    match r with
    | .ok raw =>
        match process raw with
        | some flat => .inl flat
        | none => .inr ()
    | .error e => .inl (.error e)
  match r_flat with
  | .inr _ => none
  | .inl (.ok flat) =>
      let fp := match opts.content_order with
        | .none => false
        | .dirsFirst => flat.is_dir
        | .filesFirst => !flat.is_dir
      let hid := match opts.content_filter with
        | .none => false
        | .dirsOnly => !flat.is_dir
        | .filesOnly => flat.is_dir
        | .skipAll => true
      some { flat := .ok flat, first_pass := fp, hidden := hid }
  | .inl (.error e) =>
      some { flat := .error e, first_pass := false, hidden := false }

/-- `DirEntryRecord::can_be_yielded`. -/
def DirRec.can_be_yielded (rec : DirRec) : Bool :=
  if !rec.hidden then
    true
  else
    match rec.flat with
    | .ok flat => flat.is_dir
    | .error _ => false

/-! ## Read-dir handle (`src/walk/rawdent.rs`, `ReadDir`) -/

/-- The four-state read-dir handle.  `opened` holds the remaining platform
entries of the underlying iterator. -/
inductive ReadDir where
  | once (item : RawDent)
  | opened (rd : List ChildSpec)
  | closed
  | rderror (err : ErrorInner)
  deriving DecidableEq, Repr

namespace ReadDir

/-- `ReadDir::new`: wraps a platform listing, incrementing the open count. -/
def new (rd : List ChildSpec) (opened_count : Int) : ReadDir × Int :=
  (.opened rd, opened_count + 1)

/-- `ReadDir::new_once`. -/
def new_once (item : RawDent) : ReadDir := .once item

/-- `ReadDir::on_drop`: decrement the open count iff still `Opened`. -/
def on_drop (rd : ReadDir) (opened_count : Int) : Int :=
  match rd with
  | .opened _ => opened_count - 1
  | _ => opened_count

/-- `ReadDir::is_open`. -/
def is_open : ReadDir → Bool
  | .opened _ => true
  | _ => false

/-- Convert one platform entry into a raw-entry result (the shared body of
`ReadDir::next` and `ReadDirOpenedIterator::next`). -/
def childToRaw (fs : Fs) : ChildSpec → Except ErrorInner RawDent
  | .ok i => RawDent.from_fsdent fs i
  | .ioerr => .error (.io none)

/-- `ReadDir::next`: pull one entry; on exhaustion of an `Opened` handle,
transition to `Closed` and decrement the open count. -/
def next (fs : Fs) (rd : ReadDir) (opened_count : Int) :
    Option (Except ErrorInner RawDent) × ReadDir × Int :=
  match rd with
  | .once item => (some (.ok item), .closed, opened_count)
  | .opened [] => (none, .closed, opened_count - 1)
  | .opened (s :: rest) => (some (childToRaw fs s), .opened rest, opened_count)
  | .closed => (none, .closed, opened_count)
  | .rderror e => (some (.error e), .closed, opened_count)

/-- `ReadDir::collect_all`: drain everything through the processing function,
transition to `Closed`, decrementing the count iff the handle was `Opened`. -/
def collect_all {T : Type} (fs : Fs)
    (process : Except ErrorInner RawDent → Option T)
    (rd : ReadDir) (opened_count : Int) : List T × ReadDir × Int :=
  match rd with
  | .once item => ((process (.ok item)).toList, .closed, opened_count)
  | .opened l => (l.filterMap (fun s => process (childToRaw fs s)), .closed, opened_count - 1)
  | .closed => ([], .closed, opened_count)
  | .rderror e => ((process (.error e)).toList, .closed, opened_count)

end ReadDir

end Walkdir2

namespace Walkdir2

/-! ## Directory content (`src/walk/dir.rs`, `DirContent`) -/

/-- `RawDirEntry::read_dir`: open a read-dir handle for this entry,
incrementing the open count on success. -/
def RawDent.read_dir (fs : Fs) (r : RawDent) (opened_count : Int) :
    Except ErrorInner (ReadDir × Int) :=
  match (fs.node r.id).readDir with
  | .error _ => .error (.io none)
  | .ok l => .ok (ReadDir.new l opened_count)

/-- `DirContent`: the read-dir handle, the materialized records and the
cursor (`current_pos`). -/
structure DirContent where
  rd : ReadDir
  content : List DirRec
  current_pos : Option Nat
  deriving DecidableEq, Repr

namespace DirContent

/-- `DirContent::new_once`. -/
def new_once (raw : RawDent) : DirContent :=
  { rd := ReadDir.new_once raw, content := [], current_pos := none }

/-- `DirContent::new`: open the parent's read-dir handle. -/
def new (fs : Fs) (parent : RawDent) (opened_count : Int) :
    Except ErrorInner (DirContent × Int) :=
  match parent.read_dir fs opened_count with
  | .error e => .error e
  | .ok (rd, c) => .ok ({ rd := rd, content := [], current_pos := none }, c)

/-- `DirContent::on_drop`. -/
def on_drop (dc : DirContent) (opened_count : Int) : Int :=
  dc.rd.on_drop opened_count

/-- `DirContent::is_open`. -/
def is_open (dc : DirContent) : Bool := dc.rd.is_open

/-- `DirContent::load_all`: drain the handle, appending the processed
records to `content`; returns whether the handle was open. -/
def load_all (fs : Fs) (opts : Opts) (process : ProcessFn) (dc : DirContent)
    (opened_count : Int) : Bool × DirContent × Int :=
  let was_open := dc.rd.is_open
  let r := ReadDir.collect_all fs (fun rr => DirRec.new opts process rr) dc.rd opened_count
  (was_open, { dc with rd := r.2.1, content := dc.content ++ r.1 }, r.2.2)

/-- Index of the record the next advance will look at (`next_pos`). -/
def nextPos (dc : DirContent) : Nat :=
  match dc.current_pos with
  | some p => p + 1
  | none => 0

/-- `DirContent::rewind`. -/
def rewind (dc : DirContent) : DirContent := { dc with current_pos := none }

/-- `DirContent::get_current_rec`: the record at the cursor.  The source
unwraps both the cursor and the index; `none` models the panic. -/
def get_current_rec (dc : DirContent) : Option DirRec :=
  match dc.current_pos with
  | none => none
  | some p => dc.content.get? p

/-- `as_fsdent_ty`: child entries expose the pair the sorter compares;
root entries expose nothing (the source unwraps). -/
def asFsdentTy (r : RawDent) : Option (Nat × FileType) :=
  match r.kind with
  | .root => none
  | .child => some (r.id, r.ty)

/-- User comparator model (`FnCmp`), fed the `as_fsdent_ty` views. -/
abbrev Cmp := Option (Nat × FileType) → Option (Nat × FileType) → Ordering

/-- The record ordering used by `sort_content_and_rewind`: errors sort
before ok records, ok records compare through the user comparator. -/
def recCompare (cmp : Cmp) (a b : DirRec) : Ordering :=
  match a.flat, b.flat with
  | .ok fa, .ok fb => cmp (asFsdentTy fa.raw) (asFsdentTy fb.raw)
  | .error _, .error _ => .eq
  | .ok _, .error _ => .gt
  | .error _, .ok _ => .lt

/-- `DirContent::sort_content_and_rewind`. -/
def sort_content_and_rewind (cmp : Cmp) (dc : DirContent) : DirContent :=
  { dc with
    content := dc.content.mergeSort (fun a b => recCompare cmp a b ≠ .gt),
    current_pos := none }

/-- `DirContent::load_all_and_sort`. -/
def load_all_and_sort (fs : Fs) (opts : Opts) (cmp : Cmp) (process : ProcessFn)
    (dc : DirContent) (opened_count : Int) : DirContent × Int :=
  let r := load_all fs opts process dc opened_count
  (sort_content_and_rewind cmp r.2.1, r.2.2)

end DirContent

end Walkdir2

namespace Walkdir2

namespace DirContent

/-- The records a read-dir handle would still contribute if fully drained
(the image of `collect_all` under record construction). -/
def processedList (fs : Fs) (opts : Opts) (process : ProcessFn) : ReadDir → List DirRec
  | .once item => (DirRec.new opts process (.ok item)).toList
  | .opened l => l.filterMap (fun s => DirRec.new opts process (ReadDir.childToRaw fs s))
  | .closed => []
  | .rderror e => (DirRec.new opts process (.error e)).toList

/-- All records this directory ever materializes: the ones already loaded
followed by the ones the handle would still produce. -/
def allRecs (fs : Fs) (opts : Opts) (process : ProcessFn) (dc : DirContent) : List DirRec :=
  dc.content ++ processedList fs opts process dc.rd

end DirContent

end Walkdir2

namespace Walkdir2

/-! ## Directory state (`src/walk/dir.rs`, `DirState`) -/

/-- `DirPass`. -/
inductive DirPass where
  | entire
  | first
  | second
  deriving DecidableEq, Repr

/-- `InnerPosition`: the position marker of a directory state. -/
inductive InnerPosition where
  | openDir
  | entry
  | closeDir
  deriving DecidableEq, Repr

/-- `get_initial_pass`. -/
def get_initial_pass (opts : Opts) : DirPass :=
  if opts.content_order = ContentOrder.none then .entire else .first

/-- `DirState`: depth, content, pass marker and position marker. -/
structure DirState where
  depth : Nat
  content : DirContent
  pass : DirPass
  position : InnerPosition
  deriving DecidableEq, Repr

namespace DirState

/-- `DirState::init`: with a sorter installed, materialize and sort. -/
def init (fs : Fs) (opts : Opts) (sorter : Option DirContent.Cmp)
    (process : ProcessFn) (st : DirState) (opened_count : Int) : DirState × Int :=
  match sorter with
  | some cmp =>
      let r := st.content.load_all_and_sort fs opts cmp process opened_count
      ({ st with content := r.1 }, r.2)
  | none => (st, opened_count)

/-- `DirState::new_once` (used for the root). -/
def new_once (fs : Fs) (raw : RawDent) (depth : Nat) (opts : Opts)
    (sorter : Option DirContent.Cmp) (process : ProcessFn) (opened_count : Int) :
    DirState × Int :=
  let st : DirState :=
    { depth := depth, content := DirContent.new_once raw,
      pass := get_initial_pass opts, position := .openDir }
  init fs opts sorter process st opened_count

/-- `DirState::new`: open the child's read-dir handle. -/
def new (fs : Fs) (parent : RawDent) (depth : Nat) (opts : Opts)
    (sorter : Option DirContent.Cmp) (process : ProcessFn) (opened_count : Int) :
    Except ErrorInner (DirState × Int) :=
  match DirContent.new fs parent opened_count with
  | .error e => .error e
  | .ok (dc, c) =>
      let st : DirState :=
        { depth := depth, content := dc,
          pass := get_initial_pass opts, position := .openDir }
      .ok (init fs opts sorter process st c)

/-- `DirState::on_drop`. -/
def on_drop (st : DirState) (opened_count : Int) : Int :=
  st.content.on_drop opened_count

/-- `DirState::is_open`. -/
def is_open (st : DirState) : Bool := st.content.is_open

/-- `DirState::load_all`. -/
def load_all (fs : Fs) (opts : Opts) (process : ProcessFn) (st : DirState)
    (opened_count : Int) : Bool × DirState × Int :=
  let r := st.content.load_all fs opts process opened_count
  (r.1, { st with content := r.2.1 }, r.2.2)

/-- The `valid_pass` check inside `shift_next`. -/
def validPass (pass : DirPass) (first_pass : Bool) : Bool :=
  match pass with
  | .entire => true
  | .first => first_pass
  | .second => !first_pass

/-- The `valid_pass && can_be_yielded` stop condition of the advance loop. -/
def stopsAt (pass : DirPass) (rec : DirRec) : Bool :=
  validPass pass rec.first_pass && rec.can_be_yielded

/-- Phase 1 of the advance loop under a fixed pass: step through the
already-materialized records starting at index `i` (the
`content.get(next_pos)` branch of `get_next_rec`), returning the index of
the first record that satisfies the stop condition. -/
def slotSeek (pass : DirPass) : List DirRec → Nat → Option Nat
  | [], _ => Option.none
  | rec :: rest, i =>
      if stopsAt pass rec then some i else slotSeek pass rest (i + 1)

/-- Phase 2 of the advance loop under a fixed pass: pull entries from an
`Opened` handle (the `rd.next` branch of `get_next_rec`), appending each
record the processor accepts; rejected entries are skipped silently.
Returns (hit?, records appended in order, `some rest` while the handle
stays open / `none` when it exhausted (closing and decrementing), count). -/
def pullList (fs : Fs) (opts : Opts) (process : ProcessFn) (pass : DirPass) :
    List ChildSpec → List DirRec → Int →
    Bool × List DirRec × Option (List ChildSpec) × Int
  | [], acc, c => (false, acc, Option.none, c - 1)
  | s :: rest, acc, c =>
      match DirRec.new opts process (ReadDir.childToRaw fs s) with
      | some rec =>
          if stopsAt pass rec then (true, acc ++ [rec], some rest, c)
          else pullList fs opts process pass rest (acc ++ [rec]) c
      | Option.none => pullList fs opts process pass rest acc c

/-- One pass of the advance loop of `shift_next` with `get_next_rec`
inlined: within a fixed pass, the source loop first walks the materialized
records and then pulls from the handle, never returning to the first phase
(after any pull the cursor sits at the end of `content`).  The `loop` /
`continue` structure of the source is unrolled into the two structural
recursions above so that the definition computes by kernel reduction.
Cursor semantics follow `get_next_rec`: every visited record moves the
cursor; exhaustion leaves it at the last visited record. -/
def seekPass (fs : Fs) (opts : Opts) (process : ProcessFn) (pass : DirPass)
    (dc : DirContent) (opened_count : Int) : Bool × DirContent × Int :=
  match slotSeek pass (dc.content.drop dc.nextPos) dc.nextPos with
  | some i => (true, { dc with current_pos := some i }, opened_count)
  | Option.none =>
      let exhaust : List DirRec → ReadDir → Int → Bool × DirContent × Int :=
        fun appended rd' c =>
          let content' := dc.content ++ appended
          (false,
           { rd := rd', content := content',
             current_pos :=
               if dc.nextPos < content'.length then some (content'.length - 1)
               else dc.current_pos }, c)
      let hit : List DirRec → ReadDir → Int → Bool × DirContent × Int :=
        fun appended rd' c =>
          let content' := dc.content ++ appended
          (true,
           { rd := rd', content := content',
             current_pos := some (content'.length - 1) }, c)
      match dc.rd with
      | .once item =>
          match DirRec.new opts process (.ok item) with
          | some rec =>
              if stopsAt pass rec then hit [rec] .closed opened_count
              else exhaust [rec] .closed opened_count
          | Option.none => exhaust [] .closed opened_count
      | .opened l =>
          match pullList fs opts process pass l [] opened_count with
          | (true, appended, rest, c') =>
              hit appended (match rest with
                | some r => ReadDir.opened r
                | Option.none => ReadDir.closed) c'
          | (false, appended, _, c') => exhaust appended .closed c'
      | .closed => exhaust [] .closed opened_count
      | .rderror e =>
          match DirRec.new opts process (.error e) with
          | some rec =>
              if stopsAt pass rec then hit [rec] .closed opened_count
              else exhaust [rec] .closed opened_count
          | Option.none => exhaust [] .closed opened_count

/-- `DirState::shift_next`: advance to the next record that passes the pass
check and `can_be_yielded`; on exhaustion, transition `first → second`
exactly once (rewinding the cursor), otherwise mark `CloseDir` and return
`false`. -/
def shift_next (fs : Fs) (opts : Opts) (process : ProcessFn)
    (st : DirState) (opened_count : Int) : Bool × DirState × Int :=
  match seekPass fs opts process st.pass st.content opened_count with
  | (true, dc', c') => (true, { st with content := dc' }, c')
  | (false, dc', c') =>
      match st.pass with
      | .entire | .second =>
          (false, { st with content := dc', position := .closeDir }, c')
      | .first =>
          match seekPass fs opts process .second dc'.rewind c' with
          | (true, dc2, c2) =>
              (true, { st with content := dc2, pass := .second }, c2)
          | (false, dc2, c2) =>
              (false,
               { st with
                  content := dc2,
                  pass := .second,
                  position := .closeDir }, c2)

/-- `DirState::next_position`. -/
def next_position (fs : Fs) (opts : Opts) (process : ProcessFn)
    (st : DirState) (opened_count : Int) : DirState × Int :=
  if st.position = InnerPosition.closeDir then
    (st, opened_count)
  else
    match shift_next fs opts process st opened_count with
    | (true, st', c') => ({ st' with position := .entry }, c')
    | (false, st', c') => ({ st' with position := .closeDir }, c')

/-- The record at the current cursor (`get_current_rec`); `none` stands for
the source's unwrap panic. -/
def currentRec (st : DirState) : Option DirRec :=
  st.content.get_current_rec

/-- `DirState::clone_all_content`: materialize everything and return the
converted items under the given filter. -/
def clone_all_content (fs : Fs) (opts : Opts) (cp : CP) (process : ProcessFn)
    (filter : ContentFilter) (st : DirState) (opened_count : Int) :
    List Item × DirState × Int :=
  let r := st.content.load_all fs opts process opened_count
  let st' : DirState := { st with content := r.2.1 }
  let flats := st'.content.content.filterMap (fun rec =>
    match rec.flat with
    | .ok f => some f
    | .error _ => none)
  let items :=
    match filter with
    | .none =>
        flats.filterMap (fun f => f.raw.make_content_item cp f.is_dir st.depth)
    | .dirsOnly =>
        (flats.filter (fun f => f.is_dir)).filterMap
          (fun f => f.raw.make_content_item cp f.is_dir st.depth)
    | .filesOnly =>
        (flats.filter (fun f => !f.is_dir)).filterMap
          (fun f => f.raw.make_content_item cp f.is_dir st.depth)
    | .skipAll => []
  (items, st', r.2.2)

/-- `DirState::skip_all`. -/
def skip_all (st : DirState) : DirState := { st with position := .closeDir }

end DirState

end Walkdir2

namespace Walkdir2

/-! ## Traversal engine (`src/walk/walk.rs`) -/

/-- `Ancestor`: owned path plus fingerprint. -/
structure Ancestor where
  path : Nat
  fingerprint : Nat
  deriving DecidableEq, Repr

/-- `Ancestor::new`. -/
def Ancestor.new (fs : Fs) (raw : RawDent) : Except ErrorInner Ancestor :=
  match raw.fingerprint fs with
  | .error e => .error e
  | .ok fp => .ok { path := raw.path, fingerprint := fp }

/-- `Ancestor::is_same` (`E::is_same` over (path, fingerprint) pairs): the
concrete adapters equate directories by fingerprint identity. -/
def Ancestor.is_same (a b : Ancestor) : Bool :=
  a.fingerprint = b.fingerprint

/-- `TransitionState`. -/
inductive Transition where
  | none
  | closeOldest
  | beforePushDown
  | beforePopUp
  | afterPopUp
  deriving DecidableEq, Repr

/-- `WalkDirIterator`'s mutable fields.  `states` keeps the top (deepest)
directory state at the head; the source `Vec` keeps it at the end.
`ancestors` stays in source order (index 0 shallowest) because `loop_link`
indexes it that way. -/
structure WalkState where
  root : Option Nat
  states : List DirState
  transition : Transition
  ancestors : List Ancestor
  opened_count : Int
  root_device : Option Nat
  deriving Repr

/-- Scan the ancestor stack deepest-first for the same directory
(`check_loop`'s `enumerate().rev()` scan); indices are source-order. -/
def findLoopAux (ra : Ancestor) : List (Nat × Ancestor) → Option Nat
  | [] => none
  | (i, a) :: rest => if a.is_same ra then some i else findLoopAux ra rest

/-- `WalkDirIterator::check_loop`. -/
def check_loop (fs : Fs) (raw : RawDent) (ancestors : List Ancestor) :
    Except ErrorInner (Option Nat) :=
  match Ancestor.new fs raw with
  | .error e => .error e
  | .ok ra => .ok (findLoopAux ra ancestors.enum.reverse)

/-- `WalkDirIterator::follow`: follow the symlink, then compute the loop
status if the target is a directory and ancestors exist. -/
def followAndCheck (fs : Fs) (raw : RawDent) (ancestors : List Ancestor) :
    Except ErrorInner (RawDent × Option Nat) :=
  match raw.follow fs with
  | .error e => .error e
  | .ok dent =>
      if dent.is_dir && !ancestors.isEmpty then
        match check_loop fs dent ancestors with
        | .error e => .error e
        | .ok ll => .ok (dent, ll)
      else
        .ok (dent, none)

/-- `WalkDirIterator::make_loop_error`; `none` models the source's unwrap
panic when the stored ancestor index is out of range. -/
def make_loop_error (ancestors : List Ancestor) (depth : Nat) (child : Nat) :
    Option ErrorInner :=
  (ancestors.get? depth).map (fun a => ErrorInner.loopErr a.path child)

/-- `WalkDirIterator::is_same_file_system`. -/
def is_same_fs (fs : Fs) (root_device : Nat) (dent : RawDent) :
    Except ErrorInner Bool :=
  match dent.device_num fs with
  | .error e => .error e
  | .ok d => .ok (root_device = d)

/-- `WalkDirIterator::process_rawdent` (the body of `process_dent!`).
The source `expect`s the root device when `same_file_system` is on; the
engine always sets it first, so the `none` case is unreachable in runs and
we surface it as an error record. -/
def processDent (fs : Fs) (opts : Opts) (root_device : Option Nat)
    (ancestors : List Ancestor) (depth : Nat) : ProcessFn := fun rawdent =>
  match (if rawdent.is_symlink && opts.follow_links then
          followAndCheck fs rawdent ancestors
        else
          .ok (rawdent, none)) with
  | .error err => some (.error err)
  | .ok (rdnt, loop_link) =>
      let is_normal_dir := !rdnt.is_symlink && rdnt.is_dir
      if is_normal_dir then
        if opts.same_file_system && depth > 0 then
          match root_device with
          | none => some (.error (.io none))
          | some rdev =>
              match is_same_fs fs rdev rdnt with
              | .ok true => some (.ok { raw := rdnt, is_dir := is_normal_dir, loop_link })
              | .ok false => none
              | .error err => some (.error err)
        else
          some (.ok { raw := rdnt, is_dir := is_normal_dir, loop_link })
      else if depth = 0 && rdnt.is_symlink then
        match rdnt.file_type_follow fs with
        | .ok ty => some (.ok { raw := rdnt, is_dir := ty.is_dir, loop_link })
        | .error err => some (.error err)
      else
        some (.ok { raw := rdnt, is_dir := is_normal_dir, loop_link })

/-- The `check_max_open` scan: drain the shallowest still-open state.
`states` has the deepest at the head, so the source's first-match scan
(from index 0, the shallowest) prefers a match deeper in our tail. -/
def drainAux (fs : Fs) (opts : Opts) (root_device : Option Nat)
    (ancestors : List Ancestor) :
    List DirState → Int → Option (List DirState × Int)
  | [], _ => none
  | st :: rest, c =>
      match drainAux fs opts root_device ancestors rest c with
      | some (rest', c') => some (st :: rest', c')
      | none =>
          if st.is_open then
            let r := st.load_all fs opts
              (processDent fs opts root_device ancestors st.depth) c
            some (r.2.1 :: rest, r.2.2)
          else
            none

/-- `WalkDirIterator::check_max_open`; `none` models the asserts and the
trailing `unreachable!()`. -/
def check_max_open (fs : Fs) (opts : Opts) (root_device : Option Nat)
    (ancestors : List Ancestor) (states : List DirState) (c : Int) :
    Option (List DirState × Int) :=
  match opts.max_open with
  | Option.none => some (states, c)
  | some k =>
      if c < (k : Int) then some (states, c)
      else if c ≠ (k : Int) then none
      else if c ≤ 0 then none
      else drainAux fs opts root_device ancestors states c

/-- `WalkDirIterator::push_dir_1`: open the child state and build the
ancestor.  The outer `Option` is the `assert!(flat.loop_link.is_none())`.
The error carries the open count as mutated so far: when `Ancestor::new`
fails after the child handle was opened, the source drops the fresh
`DirState` without calling `on_drop`, so the increment persists. -/
def push_dir_1 (fs : Fs) (opts : Opts) (sorter : Option DirContent.Cmp)
    (root_device : Option Nat) (ancestors : List Ancestor)
    (flat : FlatDent) (new_depth : Nat) (opened_count : Int) :
    Option (Except (ErrorInner × Int) ((DirState × Option Ancestor) × Int)) :=
  if flat.loop_link.isSome then
    none
  else
    some (
      match DirState.new fs flat.raw new_depth opts sorter
          (processDent fs opts root_device ancestors new_depth) opened_count with
      | .error e => .error (e, opened_count)
      | .ok (state, c) =>
          if opts.follow_links then
            match Ancestor.new fs flat.raw with
            | .error e => .error (e, c)
            | .ok anc => .ok ((state, some anc), c)
          else
            .ok ((state, none), c))

/-- `WalkDirIterator::init` followed by `push_root`. -/
def walkInit (fs : Fs) (opts : Opts) (sorter : Option DirContent.Cmp)
    (s : WalkState) (root_path : Nat) : Except ErrorInner WalkState :=
  match RawDent.from_path fs root_path with
  | .error e => .error e
  | .ok root =>
      if opts.same_file_system then
        match root.device_num fs with
        | .error e => .error e
        | .ok d =>
            let r := DirState.new_once fs root 0 opts sorter
              (processDent fs opts (some d) s.ancestors 0) s.opened_count
            .ok { s with
                  states := (r.1 :: s.states),
                  opened_count := r.2,
                  root_device := some d }
      else
        let r := DirState.new_once fs root 0 opts sorter
          (processDent fs opts s.root_device s.ancestors 0) s.opened_count
        .ok { s with states := (r.1 :: s.states), opened_count := r.2 }

/-- One emitted position, labelled with the stack depth at emission. -/
inductive Event where
  | openDir (depth : Nat) (parent : Item)
  | openDirWithContent (depth : Nat) (parent : Item) (content : List Item)
  | entry (depth : Nat) (it : Item)
  | errorEv (depth : Nat) (err : WdError)
  | closeDir (depth : Nat)
  deriving DecidableEq, Repr

/-- Result of one iteration of the `next` loop. -/
inductive StepRes where
  | yield (e : Event)
  | silent
  | done
  | panic
  deriving DecidableEq, Repr

end Walkdir2

namespace Walkdir2

/-- Item conversion of the parent's current record (`get_parent_dent`);
`none` models the `unreachable!()` / `unwrap()` panics. -/
def parentItem (cp : CP) (rest : List DirState) : Option Item :=
  match rest with
  | [] => none
  | parent :: _ =>
      match parent.position with
      | .entry =>
          match parent.currentRec with
          | some rec =>
              match rec.flat with
              | .ok f => f.raw.make_content_item cp f.is_dir parent.depth
              | .error _ => none
          | none => none
      | _ => none

/-- The `InnerPositionWithData::OpenDir` arm of `next`. -/
def stepOpenDir (fs : Fs) (opts : Opts) (cp : CP) (s : WalkState)
    (top : DirState) (rest : List DirState) : StepRes × WalkState :=
  if s.transition ≠ Transition.none then (.panic, s) else
  let cur_depth := rest.length
  let r := top.next_position fs opts
    (processDent fs opts s.root_device s.ancestors cur_depth) s.opened_count
  let topAdv := r.1
  let c1 := r.2
  if cur_depth = 0 then
    (.silent, { s with states := (topAdv :: rest), opened_count := c1 })
  else if opts.yield_open_dir_with_content then
    let rc := topAdv.clone_all_content fs opts cp
      (processDent fs opts s.root_device s.ancestors topAdv.depth)
      opts.open_dir_with_content_filter c1
    let s2 : WalkState := { s with states := (rc.2.1 :: rest), opened_count := rc.2.2 }
    match parentItem cp rest with
    | none => (.panic, s2)
    | some parent => (.yield (.openDirWithContent cur_depth parent rc.1), s2)
  else
    let s2 : WalkState := { s with states := (topAdv :: rest), opened_count := c1 }
    match parentItem cp rest with
    | none => (.panic, s2)
    | some parent => (.yield (.openDir cur_depth parent), s2)

/-- The directory sub-protocol of the `Entry` arm. -/
def stepEntryDir (fs : Fs) (opts : Opts) (cp : CP) (sorter : Option DirContent.Cmp)
    (s : WalkState) (top : DirState) (rest : List DirState)
    (rec : DirRec) (flat : FlatDent) : StepRes × WalkState :=
  let cur_depth := rest.length
  let allow_yield := !rec.hidden && decide (cur_depth ≥ opts.min_depth) &&
    (if flat.loop_link.isSome then opts.yield_loop_links else true)
  match s.transition with
  | .none =>
      let allow_push := decide (cur_depth < opts.max_depth) && flat.raw.allow_push cp
      -- the pre-descent Entry emission shared by both transition outcomes
      let emitEntry : Transition → StepRes × WalkState := fun t1 =>
        if !opts.contents_first && allow_yield then
          match flat.raw.make_content_item cp flat.is_dir top.depth with
          | some it => (.yield (.entry cur_depth it), { s with transition := t1 })
          | none => (.silent, { s with transition := .afterPopUp })
        else
          (.silent, { s with transition := t1 })
      if allow_push then
        match flat.loop_link with
        | some loop_depth =>
            let s1 : WalkState := { s with transition := .afterPopUp }
            if !opts.yield_loop_links then
              match make_loop_error s.ancestors loop_depth flat.raw.path with
              | none => (.panic, s1)
              | some err => (.yield (.errorEv cur_depth ⟨err, cur_depth⟩), s1)
            else
              (.silent, s1)
        | none => emitEntry .closeOldest
      else
        emitEntry .afterPopUp
  | .beforePushDown =>
      match push_dir_1 fs opts sorter s.root_device s.ancestors flat
          (cur_depth + 1) s.opened_count with
      | none => (.panic, s)
      | some (.ok ((state, ancOpt), c1)) =>
          (.silent, { s with
              transition := Transition.none,
              states := (state :: s.states),
              ancestors := s.ancestors ++ ancOpt.toList,
              opened_count := c1 })
      | some (.error err) =>
          (.yield (.errorEv cur_depth ⟨err.1, cur_depth⟩),
           { s with transition := .afterPopUp, opened_count := err.2 })
  | .afterPopUp =>
      let r := top.next_position fs opts
        (processDent fs opts s.root_device s.ancestors cur_depth) s.opened_count
      let s1 : WalkState := { s with
        transition := Transition.none, states := (r.1 :: rest), opened_count := r.2 }
      if opts.contents_first && allow_yield then
        match flat.raw.make_content_item cp flat.is_dir top.depth with
        | some it => (.yield (.entry cur_depth it), s1)
        | none => (.silent, s1)
      else
        (.silent, s1)
  | _ => (.panic, s)

/-- The non-directory case of the `Entry` arm. -/
def stepEntryNonDir (fs : Fs) (opts : Opts) (cp : CP) (s : WalkState)
    (top : DirState) (rest : List DirState)
    (rec : DirRec) (flat : FlatDent) : StepRes × WalkState :=
  if s.transition ≠ Transition.none then (.panic, s) else
  let cur_depth := rest.length
  let allow_yield := !rec.hidden && decide (cur_depth ≥ opts.min_depth) &&
    (if flat.loop_link.isSome then opts.yield_loop_links else true)
  let r := top.next_position fs opts
    (processDent fs opts s.root_device s.ancestors cur_depth) s.opened_count
  let s1 : WalkState := { s with states := (r.1 :: rest), opened_count := r.2 }
  if allow_yield then
    match flat.raw.make_content_item cp flat.is_dir top.depth with
    | some it => (.yield (.entry cur_depth it), s1)
    | none => (.silent, s1)
  else
    (.silent, s1)

/-- The error-record case of the `Entry` arm. -/
def stepEntryError (fs : Fs) (opts : Opts) (s : WalkState)
    (top : DirState) (rest : List DirState) (err : ErrorInner) :
    StepRes × WalkState :=
  if s.transition ≠ Transition.none then (.panic, s) else
  let cur_depth := rest.length
  let r := top.next_position fs opts
    (processDent fs opts s.root_device s.ancestors cur_depth) s.opened_count
  (.yield (.errorEv cur_depth ⟨err, top.depth⟩),
   { s with states := (r.1 :: rest), opened_count := r.2 })

/-- The `CloseDir` arm of `next`. -/
def stepCloseDir (opts : Opts) (s : WalkState)
    (top : DirState) (rest : List DirState) : StepRes × WalkState :=
  let cur_depth := rest.length
  if cur_depth = 0 then
    (.done, s)
  else
    match s.transition with
    | .none => (.yield (.closeDir cur_depth), { s with transition := .beforePopUp })
    | .beforePopUp =>
        let c1 := top.on_drop s.opened_count
        if opts.follow_links && s.ancestors.isEmpty then
          (.panic, s)
        else
          (.silent, { s with
              states := rest,
              ancestors := if opts.follow_links then s.ancestors.dropLast else s.ancestors,
              opened_count := c1,
              transition := .afterPopUp })
    | _ => (.panic, s)

/-- One iteration of the loop inside `WalkDirIterator::next`, with the
first-call initialization folded in.  `panic` marks any source panic
(`unreachable!`, failed `assert!`, `unwrap`/`expect`). -/
def step (fs : Fs) (opts : Opts) (cp : CP) (sorter : Option DirContent.Cmp)
    (s : WalkState) : StepRes × WalkState :=
  match s.root with
  | some root_path =>
      match walkInit fs opts sorter { s with root := Option.none } root_path with
      | .ok s1 => (.silent, s1)
      | .error e => (.yield (.errorEv 0 ⟨e, 0⟩), { s with root := Option.none })
  | Option.none =>
      match s.states with
      | [] => (.panic, s)
      | top :: rest =>
          if s.transition = .closeOldest then
            match check_max_open fs opts s.root_device s.ancestors s.states
                s.opened_count with
            | Option.none => (.panic, s)
            | some r =>
                (.silent, { s with
                    states := r.1, transition := .beforePushDown,
                    opened_count := r.2 })
          else
            match top.position with
            | .openDir => stepOpenDir fs opts cp s top rest
            | .closeDir => stepCloseDir opts s top rest
            | .entry =>
                match top.currentRec with
                | Option.none => (.panic, s)
                | some rec =>
                    match rec.flat with
                    | .error err => stepEntryError fs opts s top rest err
                    | .ok flat =>
                        if flat.is_dir then
                          stepEntryDir fs opts cp sorter s top rest rec flat
                        else
                          stepEntryNonDir fs opts cp s top rest rec flat

/-- How a (fuel-bounded) run ended. -/
inductive Outcome where
  | finished
  | panicked
  | outOfFuel
  deriving DecidableEq, Repr

/-- Drive the iterator, collecting emitted events. -/
def runAux (fs : Fs) (opts : Opts) (cp : CP) (sorter : Option DirContent.Cmp) :
    Nat → WalkState → List Event → List Event × Outcome × WalkState
  | 0, s, acc => (acc, .outOfFuel, s)
  | fuel + 1, s, acc =>
      match step fs opts cp sorter s with
      | (.yield e, s1) => runAux fs opts cp sorter fuel s1 (acc ++ [e])
      | (.silent, s1) => runAux fs opts cp sorter fuel s1 acc
      | (.done, s1) => (acc, .finished, s1)
      | (.panic, s1) => (acc, .panicked, s1)

/-- `WalkDirIterator::new`. -/
def initialState (root : Nat) : WalkState :=
  { root := some root, states := [], transition := .none, ancestors := [],
    opened_count := 0, root_device := Option.none }

/-- A complete traversal run (no `skip_current_dir` calls): iterate `next`
from a fresh iterator, with `fuel` bounding the loop iterations. -/
def run (fs : Fs) (opts : Opts) (cp : CP) (sorter : Option DirContent.Cmp)
    (root : Nat) (fuel : Nat) : List Event × Outcome × WalkState :=
  runAux fs opts cp sorter fuel (initialState root) []

end Walkdir2

namespace Walkdir2

/-! ## Concrete fixtures used by the claim evaluations and witnesses -/

/-- A directory node with the given (well-formed) children. -/
def dirNode (children : List Nat) : Node :=
  { ty := .ok .dir, tyFollow := .ok .dir, readDir := .ok (children.map .ok),
    fingerprint := .ok 0, deviceNum := .ok 0 }

/-- A plain file node. -/
def fileNode : Node :=
  { ty := .ok .file, tyFollow := .ok .file, readDir := .error (),
    fingerprint := .ok 0, deviceNum := .ok 0 }

/-- A content processor that accepts everything. -/
def cpAll : CP := { mkOk := fun _ _ _ _ => true, allowPush := fun _ => true }

/-- Number of directory states on the stack whose handle is `Opened`. -/
def countOpen (states : List DirState) : Nat :=
  states.countP (fun st => st.is_open)

/-! ## Claim C6 -/

/-- The `is_dir` flag of an ok record (false for error records). -/
def DirRec.okIsDir (rec : DirRec) : Bool :=
  match rec.flat with
  | .ok f => f.is_dir
  | .error _ => false

/-- A sample hidden directory record. -/
def sampleHiddenDirRec : DirRec :=
  { flat := .ok
      { raw := { id := 5, kind := .child, followLink := false, ty := .dir },
        is_dir := true,
        loop_link := Option.none },
    first_pass := false,
    hidden := true }

/-- A sample non-directory flat entry. -/
def sampleFileFlat : FlatDent :=
  { raw := { id := 5, kind := .child, followLink := false, ty := .file },
    is_dir := false, loop_link := Option.none }

/-- An empty engine state (no directories on the stack). -/
def sampleWalkState : WalkState :=
  { root := Option.none, states := [], transition := .none, ancestors := [],
    opened_count := 0, root_device := Option.none }

/-- A sample root directory state sitting at an Entry position. -/
def sampleTopState : DirState :=
  { depth := 0,
    content := DirContent.new_once
      { id := 0, kind := .root, followLink := false, ty := .dir },
    pass := .entire, position := .entry }

/-- A trivial filesystem of plain files. -/
def allFilesFs : Fs := { node := fun _ => fileNode, rootErr := false }

/-- C6: a directory record is yieldable as an Entry iff it is not hidden, or
it is an ok record whose `is_dir` flag is true; consequently a hidden record
is never emitted as an Entry by either Entry arm of the engine, while a
hidden directory record still initiates the descent into its subtree
(the step sets `CloseOldestBeforePushDown`). -/
theorem claim_C6 :
    (∀ rec : DirRec, rec.can_be_yielded = (!rec.hidden || rec.okIsDir))
    ∧ (∀ fs opts cp sorter s top rest rec flat, rec.hidden = true →
        (∀ d it, (stepEntryDir fs opts cp sorter s top rest rec flat).1 ≠
          .yield (.entry d it))
        ∧ (∀ d it, (stepEntryNonDir fs opts cp s top rest rec flat).1 ≠
          .yield (.entry d it)))
    ∧ (∀ fs opts cp sorter s top rest rec flat,
        s.transition = Transition.none → flat.loop_link = Option.none →
        rest.length < opts.max_depth → flat.raw.allow_push cp = true →
        rec.hidden = true →
        stepEntryDir fs opts cp sorter s top rest rec flat =
          (.silent, { s with transition := .closeOldest }))
    := by
  refine ⟨?_, ?_, ?_⟩
  · intro rec
    cases h : rec.flat <;>
      simp [DirRec.can_be_yielded, DirRec.okIsDir, h] <;> cases rec.hidden <;> simp
  · intro fs opts cp sorter s top rest rec flat hhid
    constructor
    · intro d it
      cases ht : s.transition <;> simp [stepEntryDir, ht, hhid]
      all_goals (repeat' split)
      all_goals simp
    · intro d it
      by_cases ht : s.transition = Transition.none <;>
        simp [stepEntryNonDir, ht, hhid]
  · intro fs opts cp sorter s top rest rec flat htr hll hdep hpush hhid
    simp [stepEntryDir, htr, hll, hdep, hpush, hhid]

/-- Witness for C6 at a concrete hidden directory record. -/
theorem claim_C6_witness :
    sampleHiddenDirRec.can_be_yielded =
      (!sampleHiddenDirRec.hidden || sampleHiddenDirRec.okIsDir)
    ∧ (∀ d it,
        (stepEntryNonDir allFilesFs Opts.default cpAll sampleWalkState
          sampleTopState [] sampleHiddenDirRec sampleFileFlat).1 ≠
          .yield (.entry d it)) := by
  refine ⟨claim_C6.1 sampleHiddenDirRec, ?_⟩
  exact (claim_C6.2.1 allFilesFs Opts.default cpAll Option.none sampleWalkState
    sampleTopState [] sampleHiddenDirRec sampleFileFlat (by decide)).2

end Walkdir2

namespace Walkdir2

/-! ## Claim C10 -/

/-- One builder call preserves `min_depth ≤ max_depth`. -/
theorem applyBuilderOp_depth_le {o : Opts} (h : o.min_depth ≤ o.max_depth)
    (op : BuilderOp) :
    (applyBuilderOp o op).min_depth ≤ (applyBuilderOp o op).max_depth := by
  cases op <;> simp only [applyBuilderOp] <;>
    first
      | exact h
      | (split <;> (simp only [] <;> omega))

/-- Any fold of builder calls preserves `min_depth ≤ max_depth`. -/
theorem foldBuilder_depth_le (ops : List BuilderOp) :
    ∀ o : Opts, o.min_depth ≤ o.max_depth →
      (ops.foldl applyBuilderOp o).min_depth ≤ (ops.foldl applyBuilderOp o).max_depth := by
  induction ops with
  | nil => intro o h; simpa using h
  | cons op rest ih =>
      intro o h
      simpa using ih (applyBuilderOp o op) (applyBuilderOp_depth_le h op)

/-- C10: after any sequence of builder calls the options satisfy
`min_depth ≤ max_depth`; `min_depth d` clamps down to the current
`max_depth` (leaving `max_depth` alone) and `max_depth d` raises up to the
current `min_depth` (leaving `min_depth` alone). -/
theorem claim_C10 :
    (∀ ops : List BuilderOp, (buildOpts ops).min_depth ≤ (buildOpts ops).max_depth)
    ∧ (∀ (o : Opts) (d : Nat),
        (applyBuilderOp o (.min_depth d)).min_depth = min d o.max_depth
        ∧ (applyBuilderOp o (.min_depth d)).max_depth = o.max_depth
        ∧ (applyBuilderOp o (.max_depth d)).max_depth = max d o.min_depth
        ∧ (applyBuilderOp o (.max_depth d)).min_depth = o.min_depth) := by
  constructor
  · intro ops
    exact foldBuilder_depth_le ops Opts.default (by simp [Opts.default, usizeMax])
  · intro o d
    refine ⟨?_, ?_, ?_, ?_⟩ <;> simp only [applyBuilderOp] <;> split <;>
      simp only [] <;> omega

end Walkdir2

namespace Walkdir2

/-! ## Claim C8 -/

/-- C8: for a depth-0 raw entry that is a symlink while follow-links is
disabled, per-entry processing still follows the link once and takes
`is_dir` from the target's type, while the flat entry keeps the raw entry
unchanged (so `follow_link` stays `false` and the cached type stays the
symlink type); a failure of the follow is surfaced as the record's error. -/
theorem claim_C8 :
    ∀ (fs : Fs) (opts : Opts) (root_device : Option Nat)
      (ancestors : List Ancestor) (raw : RawDent),
      raw.is_symlink = true → opts.follow_links = false →
      (∀ ty, raw.file_type_follow fs = .ok ty →
        processDent fs opts root_device ancestors 0 raw =
          some (.ok { raw := raw, is_dir := ty.is_dir, loop_link := Option.none }))
      ∧ (∀ e, raw.file_type_follow fs = .error e →
        processDent fs opts root_device ancestors 0 raw = some (.error e)) := by
  intro fs opts root_device ancestors raw hsym hfl
  have hnd : raw.is_dir = false := by
    unfold RawDent.is_symlink at hsym
    unfold RawDent.is_dir
    cases h : raw.ty <;> simp_all [FileType.is_symlink, FileType.is_dir]
  constructor
  · intro ty hty
    simp [processDent, hsym, hfl, hnd, hty]
  · intro e he
    simp [processDent, hsym, hfl, hnd, he]

/-- Witness for C8: a symlink root whose target is a directory. -/
theorem claim_C8_witness :
    let symRoot : RawDent := { id := 0, kind := .root, followLink := false, ty := .symlink }
    let fs : Fs :=
      { node := fun _ =>
          { ty := .ok .symlink, tyFollow := .ok .dir, readDir := .error (),
            fingerprint := .ok 0, deviceNum := .ok 0 },
        rootErr := false }
    processDent fs Opts.default Option.none [] 0 symRoot =
      some (.ok { raw := symRoot, is_dir := true, loop_link := Option.none }) := by
  intro symRoot fs
  have h := (claim_C8 fs Opts.default Option.none [] symRoot (by decide) (by decide)).1
    .dir (by decide)
  simpa using h

end Walkdir2

namespace Walkdir2

/-! ## Claim C4 (root-failure exhaustion) -/

/-- A filesystem whose root raw-entry construction fails. -/
def c4Fs : Fs := { node := fun _ => fileNode, rootErr := true }

/-- C4 evaluation: when constructing the root raw entry fails, the first
call to `next` yields exactly one Error at depth 0 — but every later call
hits `unreachable!()` on the empty stack (modelled as `panicked`) instead
of returning `None` as the claim (and the source's own comment) states. -/
theorem claim_C4 : ∀ k : Nat,
    (run c4Fs Opts.default cpAll Option.none 0 (k + 2)).1 =
      [Event.errorEv 0 { inner := .io (some 0), depth := 0 }]
    ∧ (run c4Fs Opts.default cpAll Option.none 0 (k + 2)).2.1 = .panicked := by
  intro k
  have h1 : step c4Fs Opts.default cpAll Option.none (initialState 0) =
      (.yield (.errorEv 0 { inner := .io (some 0), depth := 0 }),
       sampleWalkState) := rfl
  have h2 : step c4Fs Opts.default cpAll Option.none sampleWalkState =
      (.panic, sampleWalkState) := rfl
  constructor <;> simp [run, runAux, h1, h2]

/-- Witness for C4's universally quantified statement at `k = 0`. -/
theorem claim_C4_witness :
    (run c4Fs Opts.default cpAll Option.none 0 2).1 =
      [Event.errorEv 0 { inner := .io (some 0), depth := 0 }]
    ∧ (run c4Fs Opts.default cpAll Option.none 0 2).2.1 = .panicked :=
  claim_C4 0

/-! ## Claim C5 (loop-link handling) -/

/-- A filesystem with a symlink loop: node 0 is the root directory, node 1
a symlink inside it pointing back at node 0 (equal fingerprints). -/
def c5Fs : Fs :=
  { node := fun i =>
      if i = 0 then { dirNode [1] with fingerprint := .ok 100 }
      else
        { ty := .ok .symlink, tyFollow := .ok .dir,
          readDir := .ok [ChildSpec.ok 1], fingerprint := .ok 100,
          deviceNum := .ok 0 },
    rootErr := false }

/-- The root item of `c5Fs` as the content processor produces it. -/
def c5RootItem : Item := { id := 0, followLink := false, isDir := true, depth := 0 }

/-- C5 evaluation.  With yield-loop-links off the code matches the claim:
one Loop error at the entry's position and no descent.  With
yield-loop-links on (and contents-first off, the default) the claim says
the entry itself is emitted; the code instead skips the pre-descent
emission block via `continue`, so the loop entry is silently dropped —
the trace contains no Entry (and no Error) for node 1. -/
theorem claim_C5 :
    (run c5Fs { Opts.default with follow_links := true, yield_loop_links := true }
        cpAll Option.none 0 40).1 =
      [Event.entry 0 c5RootItem, Event.openDir 1 c5RootItem, Event.closeDir 1]
    ∧ (run c5Fs { Opts.default with follow_links := true, yield_loop_links := true }
        cpAll Option.none 0 40).2.1 = .finished
    ∧ (run c5Fs { Opts.default with follow_links := true }
        cpAll Option.none 0 40).1 =
      [Event.entry 0 c5RootItem, Event.openDir 1 c5RootItem,
       Event.errorEv 1 { inner := .loopErr 0 1, depth := 1 },
       Event.closeDir 1]
    ∧ (run c5Fs { Opts.default with follow_links := true }
        cpAll Option.none 0 40).2.1 = .finished := by
  refine ⟨by decide, by decide, by decide, by decide⟩

/-! ## Claim C3 (open-handle counter exactness) -/

/-- A filesystem where a child directory opens fine but its fingerprint
call fails: node 0 is the root directory containing directory node 1 whose
`fingerprint` errors. -/
def c3Fs : Fs :=
  { node := fun i =>
      if i = 0 then { dirNode [1] with fingerprint := .ok 7 }
      else { dirNode [] with fingerprint := .error () },
    rootErr := false }

/-- C3 evaluation: with follow-links on, `push_dir_1` opens node 1's handle
(incrementing the counter) and then `Ancestor::new` fails; the fresh
`DirState` is dropped without `on_drop`, so the counter stays incremented.
At the observation point after the run the counter is 1 while no handle on
the stack is in the Opened state — contradicting both the claim and the
source's own `do_debug_checks` assertion. -/
def c3Run : List Event × Outcome × WalkState :=
  run c3Fs { Opts.default with follow_links := true } cpAll Option.none 0 60

/-- C3: see the comment on `c3Run` above — counter 1, zero Opened handles. -/
theorem claim_C3 :
    c3Run.2.1 = .finished
    ∧ c3Run.2.2.opened_count = 1
    ∧ countOpen c3Run.2.2.states = 0 := by
  refine ⟨by decide, by decide, by decide⟩

end Walkdir2

namespace Walkdir2

/-! ## Claim C7: properties of the advance loop -/

namespace DirState

theorem slotSeek_offset (p : DirPass) :
    ∀ (l : List DirRec) (i : Nat),
    slotSeek p l i = (slotSeek p l 0).map (fun k => i + k) := by
  intro l
  induction l with
  | nil => intro i; rfl
  | cons rec rest ih =>
      intro i
      by_cases h : stopsAt p rec
      · simp [slotSeek, h]
      · simp only [slotSeek, h, Bool.false_eq_true, if_false]
        rw [ih (i + 1), ih 1]
        cases slotSeek p rest 0 <;> simp <;> omega

theorem slotSeek_append (p : DirPass) :
    ∀ (l1 l2 : List DirRec) (i : Nat),
    slotSeek p (l1 ++ l2) i = (slotSeek p l1 i).or (slotSeek p l2 (i + l1.length)) := by
  intro l1
  induction l1 with
  | nil => intro l2 i; simp [slotSeek, Option.or]
  | cons rec rest ih =>
      intro l2 i
      by_cases h : stopsAt p rec
      · simp [slotSeek, h, Option.or]
      · simp only [List.cons_append, slotSeek, h, Bool.false_eq_true, if_false]
        rw [show rest.append l2 = rest ++ l2 from rfl, ih l2 (i + 1)]
        have harith : i + 1 + rest.length = i + (rec :: rest).length := by
          simp only [List.length_cons]; omega
        rw [harith]

theorem slotSeek_none_iff (p : DirPass) :
    ∀ (l : List DirRec) (i : Nat),
    slotSeek p l i = Option.none ↔
      ∀ k rec, l.get? k = some rec → stopsAt p rec = false := by
  intro l
  induction l with
  | nil => intro i; simp [slotSeek]
  | cons rec rest ih =>
      intro i
      by_cases h : stopsAt p rec
      · simp only [slotSeek, h, if_true]
        constructor
        · intro hc; cases hc
        · intro hall
          have := hall 0 rec (by simp)
          rw [h] at this; cases this
      · simp only [slotSeek, h, Bool.false_eq_true, if_false]
        rw [ih (i + 1)]
        constructor
        · intro hall k rec2 hk
          cases k with
          | zero => simp at hk; subst hk; simpa using h
          | succ k2 => exact hall k2 rec2 (by simpa using hk)
        · intro hall k rec2 hk
          exact hall (k + 1) rec2 (by simpa using hk)

theorem slotSeek_some_spec (p : DirPass) :
    ∀ (l : List DirRec) (i j : Nat), slotSeek p l i = some j →
      i ≤ j
      ∧ (∃ rec, l.get? (j - i) = some rec ∧ stopsAt p rec = true)
      ∧ (∀ k rec2, k < j - i → l.get? k = some rec2 → stopsAt p rec2 = false) := by
  intro l
  induction l with
  | nil => intro i j h; cases h
  | cons rec rest ih =>
      intro i j h
      by_cases hs : stopsAt p rec
      · simp only [slotSeek, hs, if_true] at h
        cases h
        exact ⟨le_refl _, ⟨rec, by simp, hs⟩, fun k rec2 hk => by omega⟩
      · simp only [slotSeek, hs, Bool.false_eq_true, if_false] at h
        obtain ⟨hij, ⟨rec1, hget, hstop⟩, hbefore⟩ := ih (i + 1) j h
        refine ⟨by omega, ⟨rec1, ?_, hstop⟩, ?_⟩
        · have : j - i = (j - (i + 1)) + 1 := by omega
          rw [this]; simpa using hget
        · intro k rec2 hk hget2
          cases k with
          | zero => simp at hget2; subst hget2; simpa using hs
          | succ k2 =>
              refine hbefore k2 rec2 (by omega) (by simpa using hget2)

end DirState

end Walkdir2

namespace Walkdir2

namespace DirState

/-- The records an `Opened` handle's remaining entries process to. -/
def procOf (fs : Fs) (opts : Opts) (process : ProcessFn) (l : List ChildSpec) :
    List DirRec :=
  l.filterMap (fun s => DirRec.new opts process (ReadDir.childToRaw fs s))

theorem procOf_eq_processedList (fs : Fs) (opts : Opts) (process : ProcessFn)
    (l : List ChildSpec) :
    DirContent.processedList fs opts process (.opened l) = procOf fs opts process l := rfl

/-- Characterization of the pull phase: it stops at the first processed
record satisfying the stop condition, appending everything pulled so far;
on exhaustion it appends all processed records and decrements the count. -/
theorem pullList_spec (fs : Fs) (opts : Opts) (process : ProcessFn) (p : DirPass) :
    ∀ (l : List ChildSpec) (acc : List DirRec) (c : Int),
    (∀ k, slotSeek p (procOf fs opts process l) 0 = some k →
      ∃ rest, pullList fs opts process p l acc c =
        (true, acc ++ (procOf fs opts process l).take (k + 1), some rest, c)
        ∧ procOf fs opts process rest = (procOf fs opts process l).drop (k + 1))
    ∧ (slotSeek p (procOf fs opts process l) 0 = Option.none →
        pullList fs opts process p l acc c =
          (false, acc ++ procOf fs opts process l, Option.none, c - 1)) := by
  intro l
  induction l with
  | nil =>
      intro acc c
      exact ⟨fun k hk => (by cases hk), fun _ => (by simp [pullList, procOf])⟩
  | cons s rest ih =>
      intro acc c
      match hnew : DirRec.new opts process (ReadDir.childToRaw fs s) with
      | Option.none =>
          have hp : procOf fs opts process (s :: rest) = procOf fs opts process rest := by
            simp [procOf, List.filterMap_cons, hnew]
          constructor
          · intro k hk
            rw [hp] at hk
            obtain ⟨r2, heq, hr2⟩ := (ih acc c).1 k hk
            refine ⟨r2, ?_, ?_⟩
            · rw [hp]
              simpa [pullList, hnew] using heq
            · rw [hp]
              exact hr2
          · intro hk
            rw [hp] at hk
            have heq := (ih acc c).2 hk
            rw [hp]
            simpa [pullList, hnew] using heq
      | some rec =>
          have hp : procOf fs opts process (s :: rest) =
              rec :: procOf fs opts process rest := by
            simp [procOf, List.filterMap_cons, hnew]
          by_cases hs : stopsAt p rec
          · constructor
            · intro k hk
              rw [hp] at hk
              simp only [slotSeek, hs, if_true] at hk
              cases hk
              refine ⟨rest, ?_, ?_⟩
              · simp [pullList, hnew, hs, hp]
              · simp [hp]
            · intro hk
              rw [hp] at hk
              simp [slotSeek, hs] at hk
          · constructor
            · intro k hk
              rw [hp] at hk
              simp only [slotSeek, hs, Bool.false_eq_true, if_false] at hk
              rw [slotSeek_offset] at hk
              match hbase : slotSeek p (procOf fs opts process rest) 0 with
              | Option.none => rw [hbase] at hk; cases hk
              | some k0 =>
                  rw [hbase] at hk
                  simp at hk
                  obtain ⟨r2, heq, hr2⟩ := (ih (acc ++ [rec]) c).1 k0 hbase
                  refine ⟨r2, ?_, ?_⟩
                  · have : pullList fs opts process p (s :: rest) acc c =
                        pullList fs opts process p rest (acc ++ [rec]) c := by
                      simp [pullList, hnew, hs]
                    rw [this, heq, hp]
                    have hk1 : k = k0 + 1 := by omega
                    subst hk1
                    simp [List.take_succ_cons]
                  · rw [hp]
                    have hk1 : k = k0 + 1 := by omega
                    subst hk1
                    simpa [List.drop_succ_cons] using hr2
            · intro hk
              rw [hp] at hk
              simp only [slotSeek, hs, Bool.false_eq_true, if_false] at hk
              rw [slotSeek_offset] at hk
              match hbase : slotSeek p (procOf fs opts process rest) 0 with
              | some k0 => rw [hbase] at hk; cases hk
              | Option.none =>
                  have heq := (ih (acc ++ [rec]) c).2 hbase
                  have : pullList fs opts process p (s :: rest) acc c =
                      pullList fs opts process p rest (acc ++ [rec]) c := by
                    simp [pullList, hnew, hs]
                  rw [this, heq, hp]
                  simp

end DirState

end Walkdir2

namespace Walkdir2

namespace DirState

/-- The exhaustion branch of `seekPass` leaves a valid cursor. -/
theorem exhaust_cursor_le (dc : DirContent) (app : List DirRec) (rd2 : ReadDir)
    (hpos : dc.nextPos ≤ dc.content.length) :
    DirContent.nextPos
      { rd := rd2, content := dc.content ++ app,
        current_pos :=
          if dc.nextPos < (dc.content ++ app).length
          then some ((dc.content ++ app).length - 1) else dc.current_pos }
      ≤ (dc.content ++ app).length := by
  by_cases hc : dc.nextPos < (dc.content ++ app).length
  · rw [if_pos hc]
    simp only [DirContent.nextPos]
    simp only [List.length_append] at *
    omega
  · rw [if_neg hc]
    simp only [DirContent.nextPos] at hpos ⊢
    simp only [List.length_append] at *
    omega

/-- Characterization of one pass of the advance loop: under a fixed pass it
stops exactly at the first record (at an index at or past the cursor) of
the directory's full record sequence that satisfies the stop condition; if
no such record exists it materializes everything, closes the handle and
reports failure.  The record sequence `allRecs` is invariant throughout. -/
theorem seekPass_spec (fs : Fs) (opts : Opts) (process : ProcessFn) (p : DirPass)
    (dc : DirContent) (c : Int) (hpos : dc.nextPos ≤ dc.content.length) :
    (∀ i, slotSeek p ((DirContent.allRecs fs opts process dc).drop dc.nextPos)
        dc.nextPos = some i →
      (seekPass fs opts process p dc c).1 = true
      ∧ (seekPass fs opts process p dc c).2.2 = c
      ∧ (seekPass fs opts process p dc c).2.1.current_pos = some i
      ∧ DirContent.allRecs fs opts process (seekPass fs opts process p dc c).2.1 =
          DirContent.allRecs fs opts process dc
      ∧ (seekPass fs opts process p dc c).2.1.nextPos ≤
          (seekPass fs opts process p dc c).2.1.content.length)
    ∧ (slotSeek p ((DirContent.allRecs fs opts process dc).drop dc.nextPos)
        dc.nextPos = Option.none →
      (seekPass fs opts process p dc c).1 = false
      ∧ (seekPass fs opts process p dc c).2.1.content =
          DirContent.allRecs fs opts process dc
      ∧ DirContent.allRecs fs opts process (seekPass fs opts process p dc c).2.1 =
          DirContent.allRecs fs opts process dc
      ∧ (seekPass fs opts process p dc c).2.1.rd = ReadDir.closed
      ∧ (seekPass fs opts process p dc c).2.1.nextPos ≤
          (seekPass fs opts process p dc c).2.1.content.length) := by
  have hsplit : (DirContent.allRecs fs opts process dc).drop dc.nextPos =
      dc.content.drop dc.nextPos ++ DirContent.processedList fs opts process dc.rd := by
    exact List.drop_append_of_le_length hpos
  have hdl : (dc.content.drop dc.nextPos).length = dc.content.length - dc.nextPos := by
    simp
  have harith : dc.nextPos + (dc.content.drop dc.nextPos).length = dc.content.length := by
    rw [hdl]; omega
  rw [hsplit]
  rw [slotSeek_append, harith]
  match hslot : slotSeek p (dc.content.drop dc.nextPos) dc.nextPos with
  | some j =>
      obtain ⟨hij, ⟨rec, hget, hstop⟩, -⟩ := slotSeek_some_spec p _ _ _ hslot
      have hjlt : j < dc.content.length := by
        have := (List.get?_eq_some.mp hget).1
        rw [hdl] at this
        omega
      constructor
      · intro i hi
        simp only [Option.or] at hi
        cases hi
        refine ⟨?_, ?_, ?_, ?_, ?_⟩
        · simp [seekPass, hslot]
        · simp [seekPass, hslot]
        · simp [seekPass, hslot]
        · simp [seekPass, hslot, DirContent.allRecs]
        · simp only [seekPass, hslot]
          simp only [DirContent.nextPos]
          omega
      · intro hnone
        simp [Option.or] at hnone
  | Option.none =>
      simp only [Option.or]
      match hrd : dc.rd with
      | .closed =>
          constructor
          · intro i hi
            simp [DirContent.processedList, slotSeek] at hi
          · intro hnone
            refine ⟨?_, ?_, ?_, ?_, ?_⟩
            · simp [seekPass, hslot, hrd]
            · simp [seekPass, hslot, hrd, DirContent.allRecs, DirContent.processedList]
            · simp [seekPass, hslot, hrd, DirContent.allRecs, DirContent.processedList]
            · simp [seekPass, hslot, hrd]
            · simp only [seekPass, hslot, hrd]
              exact exhaust_cursor_le dc [] .closed hpos
      | .once item =>
          match hnew : DirRec.new opts process (.ok item) with
          | some rec =>
              have hpl : DirContent.processedList fs opts process (ReadDir.once item) =
                  [rec] := by simp [DirContent.processedList, hnew]
              by_cases hs : stopsAt p rec
              · constructor
                · intro i hi
                  rw [hpl] at hi
                  simp only [slotSeek, hs, if_true] at hi
                  cases hi
                  refine ⟨?_, ?_, ?_, ?_, ?_⟩
                  · simp [seekPass, hslot, hrd, hnew, hs]
                  · simp [seekPass, hslot, hrd, hnew, hs]
                  · simp [seekPass, hslot, hrd, hnew, hs]
                  · simp [seekPass, hslot, hrd, hnew, hs, DirContent.allRecs,
                      DirContent.processedList]
                  · simp only [seekPass, hslot, hrd, hnew, hs, if_true]
                    simp [DirContent.nextPos]
                · intro hnone
                  rw [hpl] at hnone
                  simp [slotSeek, hs] at hnone
              · constructor
                · intro i hi
                  rw [hpl] at hi
                  simp [slotSeek, hs] at hi
                · intro hnone
                  refine ⟨?_, ?_, ?_, ?_, ?_⟩
                  · simp [seekPass, hslot, hrd, hnew, hs]
                  · simp [seekPass, hslot, hrd, hnew, hs, DirContent.allRecs,
                      DirContent.processedList]
                  · simp [seekPass, hslot, hrd, hnew, hs, DirContent.allRecs,
                      DirContent.processedList]
                  · simp [seekPass, hslot, hrd, hnew, hs]
                  · simp only [seekPass, hslot, hrd, hnew, hs, Bool.false_eq_true,
                      if_false]
                    exact exhaust_cursor_le dc [rec] .closed hpos
          | Option.none =>
              have hpl : DirContent.processedList fs opts process (ReadDir.once item) =
                  [] := by simp [DirContent.processedList, hnew]
              constructor
              · intro i hi
                rw [hpl] at hi
                simp [slotSeek] at hi
              · intro hnone
                refine ⟨?_, ?_, ?_, ?_, ?_⟩
                · simp [seekPass, hslot, hrd, hnew]
                · simp [seekPass, hslot, hrd, hnew, DirContent.allRecs,
                    DirContent.processedList]
                · simp [seekPass, hslot, hrd, hnew, DirContent.allRecs,
                    DirContent.processedList]
                · simp [seekPass, hslot, hrd, hnew]
                · simp only [seekPass, hslot, hrd, hnew]
                  exact exhaust_cursor_le dc [] .closed hpos
      | .rderror e =>
          match hnew : DirRec.new opts process (.error e) with
          | some rec =>
              have hpl : DirContent.processedList fs opts process (ReadDir.rderror e) =
                  [rec] := by simp [DirContent.processedList, hnew]
              by_cases hs : stopsAt p rec
              · constructor
                · intro i hi
                  rw [hpl] at hi
                  simp only [slotSeek, hs, if_true] at hi
                  cases hi
                  refine ⟨?_, ?_, ?_, ?_, ?_⟩
                  · simp [seekPass, hslot, hrd, hnew, hs]
                  · simp [seekPass, hslot, hrd, hnew, hs]
                  · simp [seekPass, hslot, hrd, hnew, hs]
                  · simp [seekPass, hslot, hrd, hnew, hs, DirContent.allRecs,
                      DirContent.processedList]
                  · simp only [seekPass, hslot, hrd, hnew, hs, if_true]
                    simp [DirContent.nextPos]
                · intro hnone
                  rw [hpl] at hnone
                  simp [slotSeek, hs] at hnone
              · constructor
                · intro i hi
                  rw [hpl] at hi
                  simp [slotSeek, hs] at hi
                · intro hnone
                  refine ⟨?_, ?_, ?_, ?_, ?_⟩
                  · simp [seekPass, hslot, hrd, hnew, hs]
                  · simp [seekPass, hslot, hrd, hnew, hs, DirContent.allRecs,
                      DirContent.processedList]
                  · simp [seekPass, hslot, hrd, hnew, hs, DirContent.allRecs,
                      DirContent.processedList]
                  · simp [seekPass, hslot, hrd, hnew, hs]
                  · simp only [seekPass, hslot, hrd, hnew, hs, Bool.false_eq_true,
                      if_false]
                    exact exhaust_cursor_le dc [rec] .closed hpos
          | Option.none =>
              have hpl : DirContent.processedList fs opts process (ReadDir.rderror e) =
                  [] := by simp [DirContent.processedList, hnew]
              constructor
              · intro i hi
                rw [hpl] at hi
                simp [slotSeek] at hi
              · intro hnone
                refine ⟨?_, ?_, ?_, ?_, ?_⟩
                · simp [seekPass, hslot, hrd, hnew]
                · simp [seekPass, hslot, hrd, hnew, DirContent.allRecs,
                    DirContent.processedList]
                · simp [seekPass, hslot, hrd, hnew, DirContent.allRecs,
                    DirContent.processedList]
                · simp [seekPass, hslot, hrd, hnew]
                · simp only [seekPass, hslot, hrd, hnew]
                  exact exhaust_cursor_le dc [] .closed hpos
      | .opened l =>
          have hpl : DirContent.processedList fs opts process (ReadDir.opened l) =
              procOf fs opts process l := rfl
          constructor
          · intro i hi
            rw [hpl, slotSeek_offset] at hi
            match hbase : slotSeek p (procOf fs opts process l) 0 with
            | Option.none => rw [hbase] at hi; cases hi
            | some k =>
                rw [hbase] at hi
                simp only [Option.map_some'] at hi
                cases hi
                obtain ⟨rest, heq, hrest⟩ :=
                  (pullList_spec fs opts process p l [] c).1 k hbase
                obtain ⟨-, ⟨rec, hget, -⟩, -⟩ := slotSeek_some_spec p _ _ _ hbase
                have hklt : k < (procOf fs opts process l).length := by
                  have := (List.get?_eq_some.mp (by simpa using hget)).1
                  omega
                have htlen : ((procOf fs opts process l).take (k + 1)).length = k + 1 := by
                  simp
                  omega
                refine ⟨?_, ?_, ?_, ?_, ?_⟩
                · simp [seekPass, hslot, hrd, heq]
                · simp [seekPass, hslot, hrd, heq]
                · simp [seekPass, hslot, hrd, heq, htlen]
                · simp only [seekPass, hslot, hrd, heq]
                  simp only [DirContent.allRecs, DirContent.processedList, hrd]
                  rw [show List.filterMap
                        (fun s => DirRec.new opts process (ReadDir.childToRaw fs s))
                        rest =
                      List.drop (k + 1) (procOf fs opts process l) from hrest]
                  simp only [List.nil_append, List.append_assoc, List.take_append_drop]
                  rfl
                · simp only [seekPass, hslot, hrd, heq]
                  simp only [DirContent.nextPos, List.length_append, htlen,
                    List.nil_append]
                  omega
          · intro hnone
            rw [hpl, slotSeek_offset] at hnone
            match hbase : slotSeek p (procOf fs opts process l) 0 with
            | some k => rw [hbase] at hnone; cases hnone
            | Option.none =>
                have heq := (pullList_spec fs opts process p l [] c).2 hbase
                refine ⟨?_, ?_, ?_, ?_, ?_⟩
                · simp [seekPass, hslot, hrd, heq]
                · simp [seekPass, hslot, hrd, heq, DirContent.allRecs, hpl, procOf]
                · simp [seekPass, hslot, hrd, heq, DirContent.allRecs,
                    DirContent.processedList, hpl, procOf]
                · simp [seekPass, hslot, hrd, heq]
                · simp only [seekPass, hslot, hrd, heq]
                  have h2 := exhaust_cursor_le dc ([] ++ procOf fs opts process l)
                    .closed hpos
                  simpa using h2

end DirState

end Walkdir2

namespace Walkdir2

namespace DirState

/-- Characterization of `shift_next` in terms of the first stopping record:
it stops at the first record at or past the cursor that satisfies
`valid_pass ∧ can_be_yielded`; when the current pass is exhausted it
transitions `first → second` exactly once, rewinding to the start, and
otherwise sets the position to `CloseDir` and returns `false`. -/
theorem shift_next_spec (fs : Fs) (opts : Opts) (process : ProcessFn)
    (st : DirState) (c : Int)
    (hpos : st.content.nextPos ≤ st.content.content.length) :
    (∀ i, slotSeek st.pass
        ((DirContent.allRecs fs opts process st.content).drop st.content.nextPos)
        st.content.nextPos = some i →
      (shift_next fs opts process st c).1 = true
      ∧ (shift_next fs opts process st c).2.1.pass = st.pass
      ∧ (shift_next fs opts process st c).2.1.position = st.position
      ∧ (shift_next fs opts process st c).2.1.depth = st.depth
      ∧ (shift_next fs opts process st c).2.1.content.current_pos = some i
      ∧ DirContent.allRecs fs opts process (shift_next fs opts process st c).2.1.content
          = DirContent.allRecs fs opts process st.content)
    ∧ (slotSeek st.pass
        ((DirContent.allRecs fs opts process st.content).drop st.content.nextPos)
        st.content.nextPos = Option.none → st.pass ≠ .first →
      (shift_next fs opts process st c).1 = false
      ∧ (shift_next fs opts process st c).2.1.position = InnerPosition.closeDir
      ∧ (shift_next fs opts process st c).2.1.pass = st.pass
      ∧ (shift_next fs opts process st c).2.1.depth = st.depth)
    ∧ (slotSeek DirPass.first
        ((DirContent.allRecs fs opts process st.content).drop st.content.nextPos)
        st.content.nextPos = Option.none → st.pass = .first →
      (∀ i, slotSeek DirPass.second
          (DirContent.allRecs fs opts process st.content) 0 = some i →
        (shift_next fs opts process st c).1 = true
        ∧ (shift_next fs opts process st c).2.1.pass = DirPass.second
        ∧ (shift_next fs opts process st c).2.1.position = st.position
        ∧ (shift_next fs opts process st c).2.1.depth = st.depth
        ∧ (shift_next fs opts process st c).2.1.content.current_pos = some i
        ∧ DirContent.allRecs fs opts process
            (shift_next fs opts process st c).2.1.content
            = DirContent.allRecs fs opts process st.content)
      ∧ (slotSeek DirPass.second
          (DirContent.allRecs fs opts process st.content) 0 = Option.none →
        (shift_next fs opts process st c).1 = false
        ∧ (shift_next fs opts process st c).2.1.pass = DirPass.second
        ∧ (shift_next fs opts process st c).2.1.position = InnerPosition.closeDir
        ∧ (shift_next fs opts process st c).2.1.depth = st.depth)) := by
  refine ⟨?_, ?_, ?_⟩
  · intro i hi
    have hsp1 := seekPass_spec fs opts process st.pass st.content c hpos
    rcases hseek : seekPass fs opts process st.pass st.content c with ⟨b, dc1, c1⟩
    rw [hseek] at hsp1
    obtain ⟨h1, h2, h3, h4, h5⟩ := hsp1.1 i hi
    have hb : b = true := h1
    subst hb
    simp only [shift_next, hseek]
    exact ⟨trivial, trivial, trivial, trivial, h3, h4⟩
  · intro hnone hnf
    have hsp1 := seekPass_spec fs opts process st.pass st.content c hpos
    rcases hseek : seekPass fs opts process st.pass st.content c with ⟨b, dc1, c1⟩
    rw [hseek] at hsp1
    obtain ⟨h1, h2, h3, h4, h5⟩ := hsp1.2 hnone
    have hb : b = false := h1
    subst hb
    cases hp : st.pass with
    | entire =>
        rw [hp] at hseek
        simp only [shift_next, hp, hseek]
        exact ⟨trivial, trivial, trivial, trivial⟩
    | second =>
        rw [hp] at hseek
        simp only [shift_next, hp, hseek]
        exact ⟨trivial, trivial, trivial, trivial⟩
    | first => exact absurd hp hnf
  · intro hnone hpass
    have hsp1 := seekPass_spec fs opts process DirPass.first st.content c hpos
    rcases hseek : seekPass fs opts process DirPass.first st.content c with ⟨b, dc1, c1⟩
    rw [hseek] at hsp1
    obtain ⟨h1, h2, h3, h4, h5⟩ := hsp1.2 hnone
    have hb : b = false := h1
    subst hb
    have hpos2 : dc1.rewind.nextPos ≤ dc1.rewind.content.length := by
      simp [DirContent.rewind, DirContent.nextPos]
    have hall1 : DirContent.allRecs fs opts process dc1.rewind =
        DirContent.allRecs fs opts process st.content := h3
    have hnp1 : dc1.rewind.nextPos = 0 := rfl
    have hsp2 := seekPass_spec fs opts process DirPass.second dc1.rewind c1 hpos2
    rw [hall1, hnp1, List.drop_zero] at hsp2
    rcases hseek2 : seekPass fs opts process DirPass.second dc1.rewind c1 with ⟨b2, dc2, c2⟩
    rw [hseek2] at hsp2
    constructor
    · intro i hi
      obtain ⟨g1, g2, g3, g4, g5⟩ := hsp2.1 i hi
      have hb2 : b2 = true := g1
      subst hb2
      simp only [shift_next, hpass, hseek, hseek2]
      exact ⟨trivial, trivial, trivial, trivial, g3, g4⟩
    · intro hi
      obtain ⟨g1, g2, g3, g4, g5⟩ := hsp2.2 hi
      have hb2 : b2 = false := g1
      subst hb2
      simp only [shift_next, hpass, hseek, hseek2]
      exact ⟨trivial, trivial, trivial, trivial⟩

end DirState

end Walkdir2

namespace Walkdir2

open DirState in
/-- C7: for every directory state, the advance operation `shift_next` stops
at the first record satisfying `valid_pass ∧ can_be_yielded`, where
`valid_pass` is true under pass Entire, equals `first_pass` under First and
its negation under Second; on exhaustion it transitions First to Second
exactly once (rewinding the cursor) and otherwise sets the position to
CloseDir and returns false; when content-order is None the initial pass is
Entire and the pass stays Entire forever. -/
theorem claim_C7 (fs : Fs) (opts : Opts) (process : ProcessFn)
    (st : DirState) (c : Int)
    (hpos : st.content.nextPos ≤ st.content.content.length) :
    (∀ fp, validPass DirPass.entire fp = true
      ∧ validPass DirPass.first fp = fp
      ∧ validPass DirPass.second fp = !fp)
    ∧ (∀ p rec, stopsAt p rec = (validPass p rec.first_pass && rec.can_be_yielded))
    ∧ (∀ j, slotSeek st.pass
          ((DirContent.allRecs fs opts process st.content).drop st.content.nextPos)
          st.content.nextPos = some j →
        st.content.nextPos ≤ j
        ∧ (∃ rec,
            ((DirContent.allRecs fs opts process st.content).drop
                st.content.nextPos).get? (j - st.content.nextPos) = some rec
            ∧ stopsAt st.pass rec = true)
        ∧ (∀ k rec2, k < j - st.content.nextPos →
            ((DirContent.allRecs fs opts process st.content).drop
                st.content.nextPos).get? k = some rec2 →
            stopsAt st.pass rec2 = false)
        ∧ (shift_next fs opts process st c).1 = true
        ∧ (shift_next fs opts process st c).2.1.pass = st.pass
        ∧ (shift_next fs opts process st c).2.1.position = st.position
        ∧ (shift_next fs opts process st c).2.1.content.current_pos = some j)
    ∧ (slotSeek st.pass
          ((DirContent.allRecs fs opts process st.content).drop st.content.nextPos)
          st.content.nextPos = Option.none → st.pass ≠ DirPass.first →
        (shift_next fs opts process st c).1 = false
        ∧ (shift_next fs opts process st c).2.1.position = InnerPosition.closeDir
        ∧ (shift_next fs opts process st c).2.1.pass = st.pass)
    ∧ (slotSeek DirPass.first
          ((DirContent.allRecs fs opts process st.content).drop st.content.nextPos)
          st.content.nextPos = Option.none → st.pass = DirPass.first →
        (∀ j, slotSeek DirPass.second
            (DirContent.allRecs fs opts process st.content) 0 = some j →
          (shift_next fs opts process st c).1 = true
          ∧ (shift_next fs opts process st c).2.1.pass = DirPass.second
          ∧ (shift_next fs opts process st c).2.1.content.current_pos = some j)
        ∧ (slotSeek DirPass.second
            (DirContent.allRecs fs opts process st.content) 0 = Option.none →
          (shift_next fs opts process st c).1 = false
          ∧ (shift_next fs opts process st c).2.1.pass = DirPass.second
          ∧ (shift_next fs opts process st c).2.1.position = InnerPosition.closeDir))
    ∧ (get_initial_pass opts = DirPass.entire ↔ opts.content_order = ContentOrder.none)
    ∧ (∀ raw d sorter c2,
        ((DirState.new_once fs raw d opts sorter process c2).1).pass
          = get_initial_pass opts)
    ∧ (∀ parent d sorter c2 r,
        DirState.new fs parent d opts sorter process c2 = Except.ok r →
        r.1.pass = get_initial_pass opts)
    ∧ (st.pass = DirPass.entire →
        (shift_next fs opts process st c).2.1.pass = DirPass.entire) := by
  have hspec := shift_next_spec fs opts process st c hpos
  refine ⟨?_, ?_, ?_, ?_, ?_, ?_, ?_, ?_, ?_⟩
  · intro fp; exact ⟨rfl, rfl, rfl⟩
  · intro p rec; rfl
  · intro j hj
    obtain ⟨hij, hex, hbef⟩ := slotSeek_some_spec st.pass _ _ _ hj
    obtain ⟨h1, h2, h3, h4, h5, h6⟩ := hspec.1 j hj
    exact ⟨hij, hex, hbef, h1, h2, h3, h5⟩
  · intro hn hnf
    obtain ⟨h1, h2, h3, h4⟩ := hspec.2.1 hn hnf
    exact ⟨h1, h2, h3⟩
  · intro hn hf
    obtain ⟨ha, hb⟩ := hspec.2.2 hn hf
    constructor
    · intro j hj
      obtain ⟨g1, g2, g3, g4, g5, g6⟩ := ha j hj
      exact ⟨g1, g2, g5⟩
    · intro hn2
      obtain ⟨g1, g2, g3, g4⟩ := hb hn2
      exact ⟨g1, g2, g3⟩
  · by_cases hco : opts.content_order = ContentOrder.none
    · simp [get_initial_pass, hco]
    · simp [get_initial_pass, hco]
  · intro raw d sorter c2
    cases sorter <;> simp [DirState.new_once, DirState.init]
  · intro parent d sorter c2 r h
    cases hdc : DirContent.new fs parent c2 with
    | error e => simp [DirState.new, hdc] at h
    | ok pr =>
        obtain ⟨dc, c3⟩ := pr
        simp only [DirState.new, hdc] at h
        cases sorter with
        | none =>
            simp only [DirState.init] at h
            injection h with h
            subst h
            rfl
        | some cmp =>
            simp only [DirState.init] at h
            injection h with h
            subst h
            rfl
  · intro hp
    rcases hseek : seekPass fs opts process st.pass st.content c with ⟨b, dc1, c1⟩
    cases b with
    | true =>
        simp only [shift_next, hseek]
        exact hp
    | false =>
        rw [hp] at hseek
        simp only [shift_next, hp, hseek]

/-- C7 witness: the advance characterization applied to a concrete root
directory state under the default options. -/
theorem claim_C7_witness :
    sampleTopState.content.nextPos ≤ sampleTopState.content.content.length
    ∧ (get_initial_pass Opts.default = DirPass.entire ↔
        Opts.default.content_order = ContentOrder.none) :=
  ⟨by decide,
   (claim_C7 allFilesFs Opts.default
      (processDent allFilesFs Opts.default Option.none [] 0)
      sampleTopState 0 (by decide)).2.2.2.2.2.1⟩

end Walkdir2

namespace Walkdir2

/-! ## Open-handle accounting and stream nesting (claims C1, C2, C9) -/

/-- 1 iff the handle is in the `Opened` state. -/
def openBit (rd : ReadDir) : Int := if rd.is_open then 1 else 0

theorem openBit_nonneg (rd : ReadDir) : 0 ≤ openBit rd := by
  unfold openBit; split <;> omega

theorem openBit_le_one (rd : ReadDir) : openBit rd ≤ 1 := by
  unfold openBit; split <;> omega

/-- The operations a client can apply to one `ReadDir` handle during its
lifetime: pulling one entry, draining (`collect_all`), and the drop hook. -/
inductive RdOp where
  | next
  | collect (p : Except ErrorInner RawDent → Option DirRec)
  | drop

/-- Apply one handle operation to (handle, counter). -/
def applyOp (fs : Fs) : RdOp → ReadDir × Int → ReadDir × Int
  | .next, (rd, c) =>
      let r := ReadDir.next fs rd c
      (r.2.1, r.2.2)
  | .collect p, (rd, c) =>
      let r := ReadDir.collect_all fs p rd c
      (r.2.1, r.2.2)
  | .drop, (rd, c) => (ReadDir.closed, ReadDir.on_drop rd c)

/-- Apply a whole lifetime of handle operations. -/
def applyOps (fs : Fs) : List RdOp → ReadDir × Int → ReadDir × Int
  | [], p => p
  | op :: rest, p => applyOps fs rest (applyOp fs op p)

/-- One event checked against the current nesting depth `n`: opens must open
depth `n + 1`, closes must close depth `n ≥ 1`, and entries and errors must
sit at depth `n` exactly. -/
def evOk (n : Nat) : Event → Option Nat
  | .openDir d _ => if d = n + 1 then some (n + 1) else Option.none
  | .openDirWithContent d _ _ => if d = n + 1 then some (n + 1) else Option.none
  | .entry d _ => if d = n then some n else Option.none
  | .errorEv d _ => if d = n then some n else Option.none
  | .closeDir d => if d = n ∧ 1 ≤ n then some (n - 1) else Option.none

/-- Check a whole stream against the nesting discipline, starting at `n`. -/
def nestOk (n : Nat) : List Event → Option Nat
  | [] => some n
  | e :: rest =>
      match evOk n e with
      | some n1 => nestOk n1 rest
      | Option.none => Option.none

/-- Number of `OpenDir`/`OpenDirWithContent` events. -/
def opensEv (l : List Event) : Nat :=
  l.countP (fun e =>
    match e with
    | .openDir _ _ => true
    | .openDirWithContent _ _ _ => true
    | _ => false)

/-- Number of `CloseDir` events. -/
def closesEv (l : List Event) : Nat :=
  l.countP (fun e =>
    match e with
    | .closeDir _ => true
    | _ => false)

/-- Open and close events carry depth ≥ 1 (never the root's depth 0). -/
def evMinDepth : Event → Prop
  | .openDir d _ => 1 ≤ d
  | .openDirWithContent d _ _ => 1 ≤ d
  | .closeDir d => 1 ≤ d
  | _ => True

/-- Position marker of the deepest (top) directory state. -/
def headPos (s : WalkState) : Option InnerPosition :=
  s.states.head?.map (fun st => st.position)

/-- The nesting depth of the event stream emitted so far, reconstructed
from the engine state: it is the stack height minus one, except that a top
state still before its `OpenDir` emission, or just after its `CloseDir`
emission (transition `BeforePopUp`), is not yet counted. -/
def expectNest (s : WalkState) : Nat :=
  match s.states with
  | [] => 0
  | top :: rest =>
      match top.position, s.transition with
      | .openDir, _ => rest.length - 1
      | .closeDir, .beforePopUp => rest.length - 1
      | _, _ => rest.length

/-- The two counter bounds observable between ticks: the counter dominates
the number of `Opened` handles on the stack, and stays within `max_open`. -/
def CountBound (opts : Opts) (s : WalkState) : Prop :=
  (countOpen s.states : Int) ≤ s.opened_count
  ∧ ∀ k, opts.max_open = some k → s.opened_count ≤ (k : Int)

/-- The engine invariant maintained between iterations of `next`'s loop. -/
structure MasterInv (opts : Opts) (s : WalkState) : Prop where
  tailEntry : ∀ st ∈ s.states.tail, st.position = InnerPosition.entry
  rootPending : s.root.isSome = true →
    s.states = [] ∧ s.transition = Transition.none ∧ s.opened_count = 0
  cntLe : (countOpen s.states : Int) ≤ s.opened_count
  bpu : s.transition = Transition.beforePopUp →
    2 ≤ s.states.length ∧ headPos s = some InnerPosition.closeDir
  bpd : s.transition = Transition.beforePushDown →
    headPos s = some InnerPosition.entry
  apu : s.transition = Transition.afterPopUp →
    headPos s = some InnerPosition.entry
  co : s.transition = Transition.closeOldest →
    headPos s = some InnerPosition.entry
  maxLe : ∀ k, opts.max_open = some k → s.opened_count ≤ (k : Int)
  maxPush : ∀ k, opts.max_open = some k →
    s.transition = Transition.beforePushDown → s.opened_count + 1 ≤ (k : Int)

theorem MasterInv.countBound {opts : Opts} {s : WalkState}
    (h : MasterInv opts s) : CountBound opts s :=
  ⟨h.cntLe, h.maxLe⟩

/-- What one engine step guarantees: invariant preservation plus event
coherence with the expected nesting depth. -/
def StepOK (opts : Opts) (s : WalkState) : StepRes × WalkState → Prop
  | (.yield e, s1) => MasterInv opts s1 ∧ evOk (expectNest s) e = some (expectNest s1)
  | (.silent, s1) => MasterInv opts s1 ∧ expectNest s1 = expectNest s
  | (.done, s1) => CountBound opts s1 ∧ expectNest s = 0
  | (.panic, s1) => CountBound opts s1

theorem countOpen_cons (st : DirState) (rest : List DirState) :
    countOpen (st :: rest) = countOpen rest + (if st.is_open then 1 else 0) := by
  simp [countOpen, List.countP_cons]

/-! ### Counter deltas of the content-level operations -/

theorem collect_all_facts {T : Type} (fs : Fs)
    (p : Except ErrorInner RawDent → Option T) (rd : ReadDir) (c : Int) :
    (ReadDir.collect_all fs p rd c).2.1 = ReadDir.closed
    ∧ (ReadDir.collect_all fs p rd c).2.2 = c - openBit rd := by
  cases rd <;> simp [ReadDir.collect_all, openBit, ReadDir.is_open]

theorem load_all_facts (fs : Fs) (opts : Opts) (process : ProcessFn)
    (dc : DirContent) (c : Int) :
    (DirContent.load_all fs opts process dc c).2.1.rd = ReadDir.closed
    ∧ (DirContent.load_all fs opts process dc c).2.2 = c - openBit dc.rd
    ∧ (DirContent.load_all fs opts process dc c).2.1.content
        = dc.content ++ DirContent.processedList fs opts process dc.rd
    ∧ (DirContent.load_all fs opts process dc c).2.1.current_pos = dc.current_pos := by
  obtain ⟨rd, content, cur⟩ := dc
  cases rd <;>
    simp [DirContent.load_all, ReadDir.collect_all, openBit, ReadDir.is_open,
      DirContent.processedList]

theorem DirState_on_drop_eq (st : DirState) (c : Int) :
    DirState.on_drop st c = c - openBit st.content.rd := by
  cases h : st.content.rd <;>
    simp [DirState.on_drop, DirContent.on_drop, ReadDir.on_drop, h, openBit,
      ReadDir.is_open]

end Walkdir2

namespace Walkdir2

namespace DirState

theorem pullList_count (fs : Fs) (opts : Opts) (process : ProcessFn) (p : DirPass) :
    ∀ (l : List ChildSpec) (acc : List DirRec) (c : Int),
    ((pullList fs opts process p l acc c).1 = true →
        (pullList fs opts process p l acc c).2.2.1.isSome = true
        ∧ (pullList fs opts process p l acc c).2.2.2 = c)
    ∧ ((pullList fs opts process p l acc c).1 = false →
        (pullList fs opts process p l acc c).2.2.2 = c - 1) := by
  intro l
  induction l with
  | nil =>
      intro acc c
      constructor
      · intro h; simp [pullList] at h
      · intro h; simp [pullList]
  | cons s rest ih =>
      intro acc c
      match hnew : DirRec.new opts process (ReadDir.childToRaw fs s) with
      | some rec =>
          by_cases hs : stopsAt p rec
          · constructor
            · intro h; simp [pullList, hnew, hs]
            · intro h; simp [pullList, hnew, hs] at h
          · have heq : pullList fs opts process p (s :: rest) acc c =
                pullList fs opts process p rest (acc ++ [rec]) c := by
              simp [pullList, hnew, hs]
            rw [heq]; exact ih _ _
      | Option.none =>
          have heq : pullList fs opts process p (s :: rest) acc c =
              pullList fs opts process p rest acc c := by
            simp [pullList, hnew]
          rw [heq]; exact ih _ _

theorem seekPass_count (fs : Fs) (opts : Opts) (process : ProcessFn) (p : DirPass)
    (dc : DirContent) (c : Int) :
    (seekPass fs opts process p dc c).2.2 =
      c - openBit dc.rd + openBit (seekPass fs opts process p dc c).2.1.rd
    ∧ openBit (seekPass fs opts process p dc c).2.1.rd ≤ openBit dc.rd := by
  match hslot : slotSeek p (dc.content.drop dc.nextPos) dc.nextPos with
  | some i => simp [seekPass, hslot]
  | Option.none =>
      match hrd : dc.rd with
      | .once item =>
          match hnew : DirRec.new opts process (.ok item) with
          | some rec =>
              by_cases hs : stopsAt p rec <;>
                simp [seekPass, hslot, hrd, hnew, hs, openBit, ReadDir.is_open]
          | Option.none =>
              simp [seekPass, hslot, hrd, hnew, openBit, ReadDir.is_open]
      | .opened l =>
          rcases hpl : pullList fs opts process p l [] c with ⟨b, app, restOpt, c1⟩
          have hc := pullList_count fs opts process p l [] c
          rw [hpl] at hc
          cases b with
          | true =>
              obtain ⟨hsome, hcc⟩ := hc.1 rfl
              match restOpt, hsome with
              | some r, _ =>
                  simp only at hcc
                  simp [seekPass, hslot, hrd, hpl, hcc, openBit, ReadDir.is_open]
          | false =>
              have hcc := hc.2 rfl
              simp only at hcc
              simp [seekPass, hslot, hrd, hpl, hcc, openBit, ReadDir.is_open]
      | .closed => simp [seekPass, hslot, hrd, openBit, ReadDir.is_open]
      | .rderror e =>
          match hnew : DirRec.new opts process (.error e) with
          | some rec =>
              by_cases hs : stopsAt p rec <;>
                simp [seekPass, hslot, hrd, hnew, hs, openBit, ReadDir.is_open]
          | Option.none =>
              simp [seekPass, hslot, hrd, hnew, openBit, ReadDir.is_open]

theorem shift_next_count (fs : Fs) (opts : Opts) (process : ProcessFn)
    (st : DirState) (c : Int) :
    (shift_next fs opts process st c).2.2 =
      c - openBit st.content.rd
        + openBit (shift_next fs opts process st c).2.1.content.rd
    ∧ openBit (shift_next fs opts process st c).2.1.content.rd
        ≤ openBit st.content.rd
    ∧ (shift_next fs opts process st c).2.1.depth = st.depth := by
  have h1 := seekPass_count fs opts process st.pass st.content c
  rcases hseek : seekPass fs opts process st.pass st.content c with ⟨b, dc1, c1⟩
  rw [hseek] at h1
  simp only at h1
  cases b with
  | true =>
      have hsn : shift_next fs opts process st c =
          (true, { st with content := dc1 }, c1) := by
        simp only [shift_next, hseek]
      rw [hsn]
      exact ⟨h1.1, h1.2, rfl⟩
  | false =>
      match hpass : st.pass with
      | .entire =>
          rw [hpass] at hseek
          have hsn : shift_next fs opts process st c =
              (false, { st with content := dc1, position := .closeDir }, c1) := by
            simp only [shift_next, hpass, hseek]
          rw [hsn]
          exact ⟨h1.1, h1.2, rfl⟩
      | .second =>
          rw [hpass] at hseek
          have hsn : shift_next fs opts process st c =
              (false, { st with content := dc1, position := .closeDir }, c1) := by
            simp only [shift_next, hpass, hseek]
          rw [hsn]
          exact ⟨h1.1, h1.2, rfl⟩
      | .first =>
          rw [hpass] at hseek
          have h2 := seekPass_count fs opts process DirPass.second dc1.rewind c1
          rcases hseek2 : seekPass fs opts process DirPass.second dc1.rewind c1 with
            ⟨b2, dc2, c2⟩
          rw [hseek2] at h2
          simp only at h2
          have hrw : dc1.rewind.rd = dc1.rd := rfl
          rw [hrw] at h2
          cases b2 with
          | true =>
              have hsn : shift_next fs opts process st c =
                  (true, { st with content := dc2, pass := .second }, c2) := by
                simp only [shift_next, hpass, hseek, hseek2]
              rw [hsn]
              refine ⟨?_, ?_, rfl⟩
              · show c2 = c - openBit st.content.rd + openBit dc2.rd
                omega
              · show openBit dc2.rd ≤ openBit st.content.rd
                omega
          | false =>
              have hsn : shift_next fs opts process st c =
                  (false,
                   { st with content := dc2, pass := .second, position := .closeDir },
                   c2) := by
                simp only [shift_next, hpass, hseek, hseek2]
              rw [hsn]
              refine ⟨?_, ?_, rfl⟩
              · show c2 = c - openBit st.content.rd + openBit dc2.rd
                omega
              · show openBit dc2.rd ≤ openBit st.content.rd
                omega

theorem next_position_facts (fs : Fs) (opts : Opts) (process : ProcessFn)
    (st : DirState) (c : Int) :
    (next_position fs opts process st c).2 =
      c - openBit st.content.rd
        + openBit (next_position fs opts process st c).1.content.rd
    ∧ openBit (next_position fs opts process st c).1.content.rd
        ≤ openBit st.content.rd
    ∧ ((next_position fs opts process st c).1.position = InnerPosition.entry
        ∨ (next_position fs opts process st c).1.position = InnerPosition.closeDir)
    ∧ (next_position fs opts process st c).1.depth = st.depth := by
  by_cases hp : st.position = InnerPosition.closeDir
  · have hsn : next_position fs opts process st c = (st, c) := by
      simp only [next_position, hp, if_pos]
    rw [hsn]
    refine ⟨?_, ?_, Or.inr hp, rfl⟩
    · show c = c - openBit st.content.rd + openBit st.content.rd
      omega
    · show openBit st.content.rd ≤ openBit st.content.rd
      exact le_refl _
  · have h1 := shift_next_count fs opts process st c
    rcases hs : shift_next fs opts process st c with ⟨b, st1, c1⟩
    rw [hs] at h1
    simp only at h1
    cases b with
    | true =>
        have hsn : next_position fs opts process st c =
            ({ st1 with position := .entry }, c1) := by
          simp only [next_position, hp, if_neg, hs, ite_false]
        rw [hsn]
        exact ⟨h1.1, h1.2.1, Or.inl rfl, h1.2.2⟩
    | false =>
        have hsn : next_position fs opts process st c =
            ({ st1 with position := .closeDir }, c1) := by
          simp only [next_position, hp, if_neg, hs, ite_false]
        rw [hsn]
        exact ⟨h1.1, h1.2.1, Or.inr rfl, h1.2.2⟩

theorem clone_all_content_facts (fs : Fs) (opts : Opts) (cp : CP)
    (process : ProcessFn) (filter : ContentFilter) (st : DirState) (c : Int) :
    (clone_all_content fs opts cp process filter st c).2.2 =
      c - openBit st.content.rd
    ∧ openBit (clone_all_content fs opts cp process filter st c).2.1.content.rd = 0
    ∧ (clone_all_content fs opts cp process filter st c).2.1.position = st.position
    ∧ (clone_all_content fs opts cp process filter st c).2.1.depth = st.depth := by
  have h := load_all_facts fs opts process st.content c
  refine ⟨h.2.1, ?_, rfl, rfl⟩
  show openBit (DirContent.load_all fs opts process st.content c).2.1.rd = 0
  rw [h.1]
  rfl

theorem DirState_load_all_facts (fs : Fs) (opts : Opts) (process : ProcessFn)
    (st : DirState) (c : Int) :
    (load_all fs opts process st c).2.2 = c - openBit st.content.rd
    ∧ openBit (load_all fs opts process st c).2.1.content.rd = 0
    ∧ (load_all fs opts process st c).2.1.position = st.position
    ∧ (load_all fs opts process st c).2.1.depth = st.depth
    ∧ (load_all fs opts process st c).2.1.content.content
        = st.content.content ++ DirContent.processedList fs opts process st.content.rd := by
  have h := load_all_facts fs opts process st.content c
  refine ⟨h.2.1, ?_, rfl, rfl, h.2.2.1⟩
  show openBit (DirContent.load_all fs opts process st.content c).2.1.rd = 0
  rw [h.1]
  rfl

theorem DirContent_new_spec (fs : Fs) (parent : RawDent) (c : Int)
    (dc : DirContent) (c1 : Int) (h : DirContent.new fs parent c = .ok (dc, c1)) :
    dc.rd.is_open = true ∧ c1 = c + 1 := by
  unfold DirContent.new RawDent.read_dir at h
  cases hread : (fs.node parent.id).readDir with
  | error e => rw [hread] at h; cases h
  | ok l =>
      rw [hread] at h
      simp [ReadDir.new] at h
      obtain ⟨h1, h2⟩ := h
      subst h1 h2
      exact ⟨rfl, rfl⟩

theorem DirState_new_spec (fs : Fs) (parent : RawDent) (d : Nat) (opts : Opts)
    (sorter : Option DirContent.Cmp) (process : ProcessFn) (c : Int)
    (st1 : DirState) (c1 : Int)
    (h : DirState.new fs parent d opts sorter process c = .ok (st1, c1)) :
    c1 = c + openBit st1.content.rd
    ∧ openBit st1.content.rd ≤ 1
    ∧ st1.position = InnerPosition.openDir
    ∧ st1.depth = d := by
  cases hdc : DirContent.new fs parent c with
  | error e => simp [DirState.new, hdc] at h
  | ok pr =>
      obtain ⟨dc, c2⟩ := pr
      obtain ⟨hopen, hc2⟩ := DirContent_new_spec fs parent c dc c2 hdc
      cases sorter with
      | none =>
          simp only [DirState.new, hdc, DirState.init] at h
          injection h with h
          rw [Prod.mk.injEq] at h
          obtain ⟨h1, h2⟩ := h
          subst h1 h2
          refine ⟨?_, ?_, rfl, rfl⟩
          · show c2 = c + openBit dc.rd
            rw [hc2]
            simp [openBit, hopen]
          · show openBit dc.rd ≤ 1
            exact openBit_le_one _
      | some cmp =>
          simp only [DirState.new, hdc, DirState.init] at h
          injection h with h
          rw [Prod.mk.injEq] at h
          obtain ⟨h1, h2⟩ := h
          subst h1 h2
          have hl := load_all_facts fs opts process dc c2
          have hrd : (DirContent.sort_content_and_rewind cmp
              (DirContent.load_all fs opts process dc c2).2.1).rd
              = ReadDir.closed := by
            simp [DirContent.sort_content_and_rewind, hl.1]
          refine ⟨?_, ?_, rfl, rfl⟩
          · show (DirContent.load_all fs opts process dc c2).2.2 =
              c + openBit (DirContent.sort_content_and_rewind cmp
                (DirContent.load_all fs opts process dc c2).2.1).rd
            have hb : openBit dc.rd = 1 := by simp [openBit, hopen]
            have hz : openBit ReadDir.closed = 0 := rfl
            rw [hl.2.1, hrd, hc2, hb, hz]
            omega
          · show openBit (DirContent.sort_content_and_rewind cmp
                (DirContent.load_all fs opts process dc c2).2.1).rd ≤ 1
            rw [hrd]
            simp [openBit, ReadDir.is_open]

theorem DirState_new_once_facts (fs : Fs) (raw : RawDent) (d : Nat) (opts : Opts)
    (sorter : Option DirContent.Cmp) (process : ProcessFn) (c : Int) :
    (new_once fs raw d opts sorter process c).2 = c
    ∧ openBit (new_once fs raw d opts sorter process c).1.content.rd = 0
    ∧ (new_once fs raw d opts sorter process c).1.position = InnerPosition.openDir
    ∧ (new_once fs raw d opts sorter process c).1.depth = d := by
  cases sorter with
  | none =>
      simp [new_once, init, DirContent.new_once, ReadDir.new_once, openBit,
        ReadDir.is_open]
  | some cmp =>
      simp [new_once, init, DirContent.load_all_and_sort, DirContent.load_all,
        DirContent.new_once, ReadDir.new_once, ReadDir.collect_all,
        DirContent.sort_content_and_rewind, openBit, ReadDir.is_open]

end DirState

theorem push_dir_1_spec (fs : Fs) (opts : Opts) (sorter : Option DirContent.Cmp)
    (rdv : Option Nat) (anc : List Ancestor) (flat : FlatDent) (d : Nat) (c : Int)
    (r : Except (ErrorInner × Int) ((DirState × Option Ancestor) × Int))
    (h : push_dir_1 fs opts sorter rdv anc flat d c = some r) :
    (∀ st1 ancOpt c1, r = .ok ((st1, ancOpt), c1) →
        c1 = c + openBit st1.content.rd
        ∧ openBit st1.content.rd ≤ 1
        ∧ st1.position = InnerPosition.openDir
        ∧ st1.depth = d)
    ∧ (∀ e c1, r = .error (e, c1) → c ≤ c1 ∧ c1 ≤ c + 1) := by
  by_cases hll : flat.loop_link.isSome
  · simp [push_dir_1, hll] at h
  · simp only [push_dir_1, hll, if_false, Bool.false_eq_true] at h
    injection h with h
    subst h
    cases hnew : DirState.new fs flat.raw d opts sorter
        (processDent fs opts rdv anc d) c with
    | error e =>
        constructor
        · intro st2 ancOpt c2 hr
          simp [hnew] at hr
        · intro e1 c2 hr
          simp [hnew] at hr
          obtain ⟨-, hc⟩ := hr
          omega
    | ok pr =>
        obtain ⟨stN, cN⟩ := pr
        obtain ⟨hcN, hbN, hpN, hdN⟩ :=
          DirState.DirState_new_spec fs flat.raw d opts sorter _ c stN cN hnew
        by_cases hfl : opts.follow_links
        · cases hanc : Ancestor.new fs flat.raw with
          | error e =>
              constructor
              · intro st2 ancOpt c2 hr
                simp [hnew, hfl, hanc] at hr
              · intro e1 c2 hr
                simp [hnew, hfl, hanc] at hr
                obtain ⟨-, hc⟩ := hr
                subst hc
                have h0 := openBit_nonneg stN.content.rd
                omega
          | ok anc1 =>
              constructor
              · intro st2 ancOpt c2 hr
                simp [hnew, hfl, hanc] at hr
                obtain ⟨⟨h1, -⟩, h3⟩ := hr
                subst h1
                subst h3
                exact ⟨hcN, hbN, hpN, hdN⟩
              · intro e1 c2 hr
                simp [hnew, hfl, hanc] at hr
        · constructor
          · intro st2 ancOpt c2 hr
            simp [hnew, hfl] at hr
            obtain ⟨⟨h1, -⟩, h3⟩ := hr
            subst h1
            subst h3
            exact ⟨hcN, hbN, hpN, hdN⟩
          · intro e1 c2 hr
            simp [hnew, hfl] at hr

end Walkdir2

namespace Walkdir2

theorem openBit_eq_zero (rd : ReadDir) : openBit rd = 0 ↔ rd.is_open = false := by
  unfold openBit
  by_cases h : rd.is_open <;> simp [h]

theorem drainAux_facts (fs : Fs) (opts : Opts) (rdv : Option Nat)
    (anc : List Ancestor) :
    ∀ (sts : List DirState) (c : Int) (sts' : List DirState) (c' : Int),
    drainAux fs opts rdv anc sts c = some (sts', c') →
    c' = c - 1
    ∧ (countOpen sts' : Int) = (countOpen sts : Int) - 1
    ∧ sts'.map (fun st => st.position) = sts.map (fun st => st.position)
    ∧ sts'.length = sts.length := by
  intro sts
  induction sts with
  | nil => intro c sts' c' h; simp [drainAux] at h
  | cons st rest ih =>
      intro c sts' c' h
      match hrec : drainAux fs opts rdv anc rest c with
      | some pr =>
          obtain ⟨rest', c2⟩ := pr
          simp only [drainAux, hrec] at h
          injection h with h
          rw [Prod.mk.injEq] at h
          obtain ⟨h1, h2⟩ := h
          subst h1 h2
          obtain ⟨ihc, ihcnt, ihmap, ihlen⟩ := ih c rest' c2 hrec
          refine ⟨ihc, ?_, ?_, ?_⟩
          · rw [countOpen_cons, countOpen_cons]
            by_cases hop : st.is_open <;> simp [hop] <;> omega
          · simp [ihmap]
          · simp [ihlen]
      | Option.none =>
          simp only [drainAux, hrec] at h
          by_cases hop : st.is_open
          · simp only [hop, if_true] at h
            injection h with h
            rw [Prod.mk.injEq] at h
            obtain ⟨h1, h2⟩ := h
            subst h1 h2
            have hfacts := DirState.DirState_load_all_facts fs opts
              (processDent fs opts rdv anc st.depth) st c
            have hbit : openBit st.content.rd = 1 := by
              have hrdopen : st.content.rd.is_open = true := hop
              simp [openBit, hrdopen]
            refine ⟨?_, ?_, ?_, ?_⟩
            · rw [hfacts.1, hbit]
            · rw [countOpen_cons, countOpen_cons]
              have hclosed : (DirState.load_all fs opts
                  (processDent fs opts rdv anc st.depth) st c).2.1.is_open = false := by
                have := hfacts.2.1
                exact (openBit_eq_zero _).mp this
              simp [hclosed, hop]
            · simp [hfacts.2.2.1]
            · simp
          · simp [hop] at h

theorem drainAux_none_iff (fs : Fs) (opts : Opts) (rdv : Option Nat)
    (anc : List Ancestor) :
    ∀ (sts : List DirState) (c : Int),
    drainAux fs opts rdv anc sts c = Option.none ↔
      ∀ st ∈ sts, st.is_open = false := by
  intro sts
  induction sts with
  | nil => intro c; simp [drainAux]
  | cons st rest ih =>
      intro c
      cases hrec : drainAux fs opts rdv anc rest c with
      | some pr =>
          simp only [drainAux, hrec]
          constructor
          · intro hc; cases hc
          · intro hall
            have hnone : drainAux fs opts rdv anc rest c = Option.none :=
              (ih c).mpr (fun st2 hm => hall st2 (List.mem_cons_of_mem _ hm))
            rw [hrec] at hnone
            cases hnone
      | none =>
          by_cases hop : st.is_open
          · simp only [drainAux, hrec, hop, if_true]
            constructor
            · intro hc; cases hc
            · intro hall
              have := hall st (List.mem_cons_self _ _)
              rw [hop] at this
              cases this
          · simp only [drainAux, hrec, hop]
            constructor
            · intro _ st2 hm
              rcases List.mem_cons.mp hm with h | h
              · subst h; simpa using hop
              · exact (ih c).mp hrec st2 h
            · intro _; simp

theorem drainAux_some_spec (fs : Fs) (opts : Opts) (rdv : Option Nat)
    (anc : List Ancestor) :
    ∀ (sts : List DirState) (c : Int) (sts' : List DirState) (c' : Int),
    drainAux fs opts rdv anc sts c = some (sts', c') →
    ∃ i st, sts.get? i = some st ∧ st.is_open = true
      ∧ (∀ j st2, i < j → sts.get? j = some st2 → st2.is_open = false)
      ∧ sts' = sts.set i
          (DirState.load_all fs opts (processDent fs opts rdv anc st.depth) st c).2.1
      ∧ c' = (DirState.load_all fs opts (processDent fs opts rdv anc st.depth) st c).2.2 := by
  intro sts
  induction sts with
  | nil => intro c sts' c' h; simp [drainAux] at h
  | cons st rest ih =>
      intro c sts' c' h
      match hrec : drainAux fs opts rdv anc rest c with
      | some pr =>
          obtain ⟨rest', c2⟩ := pr
          simp only [drainAux, hrec] at h
          injection h with h
          rw [Prod.mk.injEq] at h
          obtain ⟨h1, h2⟩ := h
          subst h1 h2
          obtain ⟨i0, st0, hget, hopen0, hafter, hset, hc⟩ := ih c rest' c2 hrec
          refine ⟨i0 + 1, st0, ?_, hopen0, ?_, ?_, hc⟩
          · simpa using hget
          · intro j st2 hij hj
            match j, hij with
            | j0 + 1, _ =>
                exact hafter j0 st2 (by omega) (by simpa using hj)
          · rw [hset]
            rfl
      | Option.none =>
          simp only [drainAux, hrec] at h
          by_cases hop : st.is_open
          · simp only [hop, if_true] at h
            injection h with h
            rw [Prod.mk.injEq] at h
            obtain ⟨h1, h2⟩ := h
            subst h1 h2
            refine ⟨0, st, rfl, hop, ?_, rfl, rfl⟩
            intro j st2 hij hj
            match j, hij with
            | j0 + 1, _ =>
                have hmem : st2 ∈ rest := List.get?_mem (by simpa using hj)
                exact (drainAux_none_iff fs opts rdv anc rest c).mp hrec st2 hmem
          · simp [hop] at h

theorem check_max_open_facts (fs : Fs) (opts : Opts) (rdv : Option Nat)
    (anc : List Ancestor) (sts : List DirState) (c : Int)
    (hcnt : (countOpen sts : Int) ≤ c)
    (sts' : List DirState) (c' : Int)
    (h : check_max_open fs opts rdv anc sts c = some (sts', c')) :
    sts'.map (fun st => st.position) = sts.map (fun st => st.position)
    ∧ sts'.length = sts.length
    ∧ (countOpen sts' : Int) ≤ c'
    ∧ c' ≤ c
    ∧ (∀ k, opts.max_open = some k → c' + 1 ≤ (k : Int)) := by
  cases hmo : opts.max_open with
  | none =>
      simp only [check_max_open, hmo] at h
      injection h with h
      rw [Prod.mk.injEq] at h
      obtain ⟨h1, h2⟩ := h
      subst h1 h2
      exact ⟨rfl, rfl, hcnt, le_refl _, fun k hk => by simp at hk⟩
  | some k =>
      simp only [check_max_open, hmo] at h
      by_cases hlt : c < (k : Int)
      · rw [if_pos hlt] at h
        injection h with h
        rw [Prod.mk.injEq] at h
        obtain ⟨h1, h2⟩ := h
        subst h1 h2
        refine ⟨rfl, rfl, hcnt, le_refl _, fun k2 hk2 => ?_⟩
        injection hk2 with hk2
        subst hk2
        omega
      · rw [if_neg hlt] at h
        by_cases hne : c ≠ (k : Int)
        · rw [if_pos hne] at h; cases h
        · rw [if_neg hne] at h
          push_neg at hne
          by_cases hle : c ≤ 0
          · rw [if_pos hle] at h; cases h
          · rw [if_neg hle] at h
            obtain ⟨hc, hcount, hmap, hlen⟩ := drainAux_facts fs opts rdv anc sts c sts' c' h
            refine ⟨hmap, hlen, by omega, by omega, fun k2 hk2 => ?_⟩
            injection hk2 with hk2
            subst hk2
            omega

end Walkdir2

namespace Walkdir2

theorem DirState_is_open_eq (st : DirState) : st.is_open = st.content.rd.is_open := rfl

theorem countOpen_cons_int (st : DirState) (rest : List DirState) :
    (countOpen (st :: rest) : Int) = (countOpen rest : Int) + openBit st.content.rd := by
  rw [countOpen_cons]
  push_cast
  rw [DirState_is_open_eq]
  unfold openBit
  by_cases h : st.content.rd.is_open <;> simp [h]

/-- Rebuild the invariant after replacing the top state under a `none`
transition (the advancing arms of `next`). -/
theorem MasterInv_replaceTop (opts : Opts) (s : WalkState)
    (h : MasterInv opts s)
    (top : DirState) (rest : List DirState) (hst : s.states = top :: rest)
    (htr : s.transition = Transition.none)
    (top' : DirState) (c' : Int)
    (hcount : (countOpen (top' :: rest) : Int) ≤ c')
    (hmax : ∀ k, opts.max_open = some k → c' ≤ (k : Int)) :
    MasterInv opts { s with states := (top' :: rest), opened_count := c' } := by
  refine ⟨?_, ?_, hcount, ?_, ?_, ?_, ?_, hmax, ?_⟩
  · intro st hm
    exact h.tailEntry st (by rw [hst]; simpa using hm)
  · intro hr
    have hempty := (h.rootPending hr).1
    rw [hst] at hempty
    cases hempty
  · intro htr2
    simp only at htr2
    rw [htr] at htr2
    cases htr2
  · intro htr2
    simp only at htr2
    rw [htr] at htr2
    cases htr2
  · intro htr2
    simp only at htr2
    rw [htr] at htr2
    cases htr2
  · intro htr2
    simp only at htr2
    rw [htr] at htr2
    cases htr2
  · intro k hk htr2
    simp only at htr2
    rw [htr] at htr2
    cases htr2

theorem expectNest_notOpen (s : WalkState) (top : DirState) (rest : List DirState)
    (hst : s.states = top :: rest)
    (hpos : top.position = InnerPosition.entry ∨ top.position = InnerPosition.closeDir)
    (htr : s.transition ≠ Transition.beforePopUp) :
    expectNest s = rest.length := by
  rcases hpos with hp | hp
  · simp [expectNest, hst, hp]
  · cases htr2 : s.transition with
    | beforePopUp => exact absurd htr2 htr
    | none => simp [expectNest, hst, hp, htr2]
    | closeOldest => simp [expectNest, hst, hp, htr2]
    | beforePushDown => simp [expectNest, hst, hp, htr2]
    | afterPopUp => simp [expectNest, hst, hp, htr2]

theorem expectNest_open (s : WalkState) (top : DirState) (rest : List DirState)
    (hst : s.states = top :: rest)
    (hpos : top.position = InnerPosition.openDir) :
    expectNest s = rest.length - 1 := by
  simp [expectNest, hst, hpos]

end Walkdir2

namespace Walkdir2

theorem stepOpenDir_master (fs : Fs) (opts : Opts) (cp : CP) (s : WalkState)
    (top : DirState) (rest : List DirState)
    (h : MasterInv opts s) (hst : s.states = top :: rest)
    (htop : top.position = InnerPosition.openDir) :
    StepOK opts s (stepOpenDir fs opts cp s top rest) := by
  by_cases htr : s.transition = Transition.none
  case neg =>
    have heq : stepOpenDir fs opts cp s top rest = (.panic, s) := by
      simp [stepOpenDir, htr]
    rw [heq]
    exact h.countBound
  case pos =>
    have hnp := DirState.next_position_facts fs opts
      (processDent fs opts s.root_device s.ancestors rest.length) top s.opened_count
    rcases hr : DirState.next_position fs opts
        (processDent fs opts s.root_device s.ancestors rest.length) top s.opened_count
      with ⟨topAdv, c1⟩
    rw [hr] at hnp
    simp only at hnp
    obtain ⟨hc1, hble, hpos1, hdep1⟩ := hnp
    have hN : expectNest s = rest.length - 1 := expectNest_open s top rest hst htop
    have hcnt : (countOpen (top :: rest) : Int) ≤ s.opened_count := by
      rw [← hst]; exact h.cntLe
    rw [countOpen_cons_int] at hcnt
    have hb0 := openBit_nonneg topAdv.content.rd
    have hb1 := openBit_nonneg top.content.rd
    have hcnt1 : (countOpen (topAdv :: rest) : Int) ≤ c1 := by
      rw [countOpen_cons_int]; omega
    have hmax1 : ∀ k, opts.max_open = some k → c1 ≤ (k : Int) := by
      intro k hk
      have := h.maxLe k hk
      omega
    by_cases hz : rest.length = 0
    · rw [hz] at hr
      have heq : stepOpenDir fs opts cp s top rest =
          (.silent, { s with states := (topAdv :: rest), opened_count := c1 }) := by
        simp [stepOpenDir, htr, hr, hz]
      rw [heq]
      refine ⟨MasterInv_replaceTop opts s h top rest hst htr topAdv c1 hcnt1 hmax1, ?_⟩
      rw [expectNest_notOpen _ topAdv rest rfl hpos1
        (by intro hc; simp only at hc; rw [htr] at hc; cases hc), hN]
      omega
    · by_cases hyc : opts.yield_open_dir_with_content
      · have hclone := DirState.clone_all_content_facts fs opts cp
          (processDent fs opts s.root_device s.ancestors topAdv.depth)
          opts.open_dir_with_content_filter topAdv c1
        rcases hrc : DirState.clone_all_content fs opts cp
            (processDent fs opts s.root_device s.ancestors topAdv.depth)
            opts.open_dir_with_content_filter topAdv c1 with ⟨items, st2, c2⟩
        rw [hrc] at hclone
        simp only at hclone
        obtain ⟨hc2, hbit2, hpos2, hdep2⟩ := hclone
        have hcnt2 : (countOpen (st2 :: rest) : Int) ≤ c2 := by
          rw [countOpen_cons_int, hbit2, hc2]; omega
        have hmax2 : ∀ k, opts.max_open = some k → c2 ≤ (k : Int) := by
          intro k hk
          have := h.maxLe k hk
          omega
        have hpos2' : st2.position = InnerPosition.entry
            ∨ st2.position = InnerPosition.closeDir := by
          rw [hpos2]; exact hpos1
        rcases hpi : parentItem cp rest with _ | parent
        · have heq : stepOpenDir fs opts cp s top rest =
              (.panic, { s with states := (st2 :: rest), opened_count := c2 }) := by
            simp [stepOpenDir, htr, hr, hz, hyc, hrc, hpi]
          rw [heq]
          exact ⟨hcnt2, hmax2⟩
        · have heq : stepOpenDir fs opts cp s top rest =
              (.yield (.openDirWithContent rest.length parent items),
               { s with states := (st2 :: rest), opened_count := c2 }) := by
            simp [stepOpenDir, htr, hr, hz, hyc, hrc, hpi]
          rw [heq]
          refine ⟨MasterInv_replaceTop opts s h top rest hst htr st2 c2 hcnt2 hmax2, ?_⟩
          have hs2N : expectNest
              { s with states := (st2 :: rest), opened_count := c2 } = rest.length :=
            expectNest_notOpen _ st2 rest rfl hpos2'
              (by intro hc; simp only at hc; rw [htr] at hc; cases hc)
          rw [hN, hs2N]
          simp only [evOk]
          rw [if_pos (by omega)]
          congr 1
          omega
      · rcases hpi : parentItem cp rest with _ | parent
        · have heq : stepOpenDir fs opts cp s top rest =
              (.panic, { s with states := (topAdv :: rest), opened_count := c1 }) := by
            simp [stepOpenDir, htr, hr, hz, hyc, hpi]
          rw [heq]
          exact ⟨hcnt1, hmax1⟩
        · have heq : stepOpenDir fs opts cp s top rest =
              (.yield (.openDir rest.length parent),
               { s with states := (topAdv :: rest), opened_count := c1 }) := by
            simp [stepOpenDir, htr, hr, hz, hyc, hpi]
          rw [heq]
          refine ⟨MasterInv_replaceTop opts s h top rest hst htr topAdv c1 hcnt1 hmax1, ?_⟩
          have hs1N : expectNest
              { s with states := (topAdv :: rest), opened_count := c1 } = rest.length :=
            expectNest_notOpen _ topAdv rest rfl hpos1
              (by intro hc; simp only at hc; rw [htr] at hc; cases hc)
          rw [hN, hs1N]
          simp only [evOk]
          rw [if_pos (by omega)]
          congr 1
          omega

end Walkdir2

namespace Walkdir2

/-- Rebuild the invariant when only the transition changes while the top
state sits at an Entry position. -/
theorem MasterInv_setTransition (opts : Opts) (s : WalkState)
    (h : MasterInv opts s)
    (top : DirState) (rest : List DirState) (hst : s.states = top :: rest)
    (htop : top.position = InnerPosition.entry)
    (t1 : Transition)
    (ht1 : t1 ≠ Transition.beforePopUp ∧ t1 ≠ Transition.beforePushDown) :
    MasterInv opts { s with transition := t1 } := by
  refine ⟨h.tailEntry, ?_, h.cntLe, ?_, ?_, ?_, ?_, h.maxLe, ?_⟩
  · intro hr
    have hempty := (h.rootPending hr).1
    rw [hst] at hempty
    cases hempty
  · intro htr2
    simp only at htr2
    exact absurd htr2 ht1.1
  · intro htr2
    simp only at htr2
    exact absurd htr2 ht1.2
  · intro htr2
    show headPos s = some InnerPosition.entry
    rw [headPos, hst]
    simp [htop]
  · intro htr2
    show headPos s = some InnerPosition.entry
    rw [headPos, hst]
    simp [htop]
  · intro k hk htr2
    simp only at htr2
    exact absurd htr2 ht1.2

/-- Rebuild the invariant after replacing the top state and resetting the
transition to `None`. -/
theorem MasterInv_replaceTopToNone (opts : Opts) (s : WalkState)
    (h : MasterInv opts s)
    (top : DirState) (rest : List DirState) (hst : s.states = top :: rest)
    (top' : DirState) (c' : Int)
    (hcount : (countOpen (top' :: rest) : Int) ≤ c')
    (hmax : ∀ k, opts.max_open = some k → c' ≤ (k : Int)) :
    MasterInv opts { s with
      transition := Transition.none,
      states := (top' :: rest),
      opened_count := c' } := by
  refine ⟨?_, ?_, hcount, ?_, ?_, ?_, ?_, hmax, ?_⟩
  · intro st hm
    exact h.tailEntry st (by rw [hst]; simpa using hm)
  · intro hr
    have hempty := (h.rootPending hr).1
    rw [hst] at hempty
    cases hempty
  · intro htr2; simp only at htr2; cases htr2
  · intro htr2; simp only at htr2; cases htr2
  · intro htr2; simp only at htr2; cases htr2
  · intro htr2; simp only at htr2; cases htr2
  · intro k hk htr2; simp only at htr2; cases htr2

theorem top_entry_not_bpu (opts : Opts) (s : WalkState) (h : MasterInv opts s)
    (top : DirState) (rest : List DirState) (hst : s.states = top :: rest)
    (htop : top.position = InnerPosition.entry) :
    s.transition ≠ Transition.beforePopUp := by
  intro hc
  have hh := (h.bpu hc).2
  rw [headPos, hst] at hh
  simp at hh
  rw [htop] at hh
  cases hh

theorem stepEntryNonDir_master (fs : Fs) (opts : Opts) (cp : CP) (s : WalkState)
    (top : DirState) (rest : List DirState) (rec : DirRec) (flat : FlatDent)
    (h : MasterInv opts s) (hst : s.states = top :: rest)
    (htop : top.position = InnerPosition.entry) :
    StepOK opts s (stepEntryNonDir fs opts cp s top rest rec flat) := by
  obtain ⟨hc1, hble, hpos1, hdep1⟩ := DirState.next_position_facts fs opts
    (processDent fs opts s.root_device s.ancestors rest.length) top s.opened_count
  have hcnt : (countOpen rest : Int) + openBit top.content.rd ≤ s.opened_count := by
    have hx := h.cntLe; rw [hst, countOpen_cons_int] at hx; exact hx
  have hb0 := openBit_nonneg ((DirState.next_position fs opts
    (processDent fs opts s.root_device s.ancestors rest.length) top
      s.opened_count).1.content.rd)
  have hb1 := openBit_nonneg top.content.rd
  have hcnt1 : (countOpen ((DirState.next_position fs opts
      (processDent fs opts s.root_device s.ancestors rest.length) top
        s.opened_count).1 :: rest) : Int) ≤
      (DirState.next_position fs opts
        (processDent fs opts s.root_device s.ancestors rest.length) top
          s.opened_count).2 := by
    rw [countOpen_cons_int]; omega
  have hmax1 : ∀ k, opts.max_open = some k →
      (DirState.next_position fs opts
        (processDent fs opts s.root_device s.ancestors rest.length) top
          s.opened_count).2 ≤ (k : Int) := by
    intro k hk
    have := h.maxLe k hk
    omega
  have htrbpu := top_entry_not_bpu opts s h top rest hst htop
  have hN : expectNest s = rest.length :=
    expectNest_notOpen s top rest hst (Or.inl htop) htrbpu
  have hEN : expectNest { s with
      states := ((DirState.next_position fs opts (processDent fs opts s.root_device s.ancestors rest.length) top s.opened_count).1 :: rest),
      opened_count := (DirState.next_position fs opts (processDent fs opts s.root_device s.ancestors rest.length) top s.opened_count).2 } = rest.length := by
    apply expectNest_notOpen _ _ rest rfl hpos1
    intro hc
    simp only at hc
    exact htrbpu hc
  simp only [stepEntryNonDir]
  split
  · exact h.countBound
  next htr2 =>
    have htr : s.transition = Transition.none := not_not.mp htr2
    have hMI := MasterInv_replaceTop opts s h top rest hst htr _ _ hcnt1 hmax1
    repeat' split
    all_goals refine ⟨hMI, ?_⟩
    all_goals rw [hN, hEN]
    all_goals simp [evOk]

theorem stepEntryError_master (fs : Fs) (opts : Opts) (s : WalkState)
    (top : DirState) (rest : List DirState) (err : ErrorInner)
    (h : MasterInv opts s) (hst : s.states = top :: rest)
    (htop : top.position = InnerPosition.entry) :
    StepOK opts s (stepEntryError fs opts s top rest err) := by
  obtain ⟨hc1, hble, hpos1, hdep1⟩ := DirState.next_position_facts fs opts
    (processDent fs opts s.root_device s.ancestors rest.length) top s.opened_count
  have hcnt : (countOpen rest : Int) + openBit top.content.rd ≤ s.opened_count := by
    have hx := h.cntLe; rw [hst, countOpen_cons_int] at hx; exact hx
  have hb0 := openBit_nonneg ((DirState.next_position fs opts
    (processDent fs opts s.root_device s.ancestors rest.length) top
      s.opened_count).1.content.rd)
  have hb1 := openBit_nonneg top.content.rd
  have hcnt1 : (countOpen ((DirState.next_position fs opts
      (processDent fs opts s.root_device s.ancestors rest.length) top
        s.opened_count).1 :: rest) : Int) ≤
      (DirState.next_position fs opts
        (processDent fs opts s.root_device s.ancestors rest.length) top
          s.opened_count).2 := by
    rw [countOpen_cons_int]; omega
  have hmax1 : ∀ k, opts.max_open = some k →
      (DirState.next_position fs opts
        (processDent fs opts s.root_device s.ancestors rest.length) top
          s.opened_count).2 ≤ (k : Int) := by
    intro k hk
    have := h.maxLe k hk
    omega
  have htrbpu := top_entry_not_bpu opts s h top rest hst htop
  have hN : expectNest s = rest.length :=
    expectNest_notOpen s top rest hst (Or.inl htop) htrbpu
  have hEN : expectNest { s with
      states := ((DirState.next_position fs opts (processDent fs opts s.root_device s.ancestors rest.length) top s.opened_count).1 :: rest),
      opened_count := (DirState.next_position fs opts (processDent fs opts s.root_device s.ancestors rest.length) top s.opened_count).2 } = rest.length := by
    apply expectNest_notOpen _ _ rest rfl hpos1
    intro hc
    simp only at hc
    exact htrbpu hc
  simp only [stepEntryError]
  split
  · exact h.countBound
  next htr2 =>
    have htr : s.transition = Transition.none := not_not.mp htr2
    exact ⟨MasterInv_replaceTop opts s h top rest hst htr _ _ hcnt1 hmax1,
      by rw [hN, hEN]; simp [evOk]⟩

end Walkdir2

namespace Walkdir2

theorem stepCloseDir_master (opts : Opts) (s : WalkState)
    (top : DirState) (rest : List DirState)
    (h : MasterInv opts s) (hst : s.states = top :: rest)
    (htop : top.position = InnerPosition.closeDir)
    (hnco : s.transition ≠ Transition.closeOldest) :
    StepOK opts s (stepCloseDir opts s top rest) := by
  by_cases hz : rest.length = 0
  · have heq : stepCloseDir opts s top rest = (.done, s) := by
      simp [stepCloseDir, hz]
    rw [heq]
    refine ⟨h.countBound, ?_⟩
    cases htr : s.transition with
    | none => simp [expectNest, hst, htop, htr, hz]
    | beforePopUp =>
        have hlen := (h.bpu htr).1
        rw [hst] at hlen
        simp at hlen
        omega
    | beforePushDown =>
        have hh := h.bpd htr
        rw [headPos, hst] at hh
        simp at hh
        rw [htop] at hh
        cases hh
    | afterPopUp =>
        have hh := h.apu htr
        rw [headPos, hst] at hh
        simp at hh
        rw [htop] at hh
        cases hh
    | closeOldest => exact absurd htr hnco
  · cases htr : s.transition with
    | none =>
        have heq : stepCloseDir opts s top rest =
            (.yield (.closeDir rest.length),
             { s with transition := Transition.beforePopUp }) := by
          simp [stepCloseDir, hz, htr]
        rw [heq]
        constructor
        · refine ⟨h.tailEntry, ?_, h.cntLe, ?_, ?_, ?_, ?_, h.maxLe, ?_⟩
          · intro hr
            have hempty := (h.rootPending hr).1
            rw [hst] at hempty
            cases hempty
          · intro htr2
            constructor
            · rw [hst]; simp; omega
            · rw [headPos, hst]; simp [htop]
          · intro htr2; simp only at htr2; cases htr2
          · intro htr2; simp only at htr2; cases htr2
          · intro htr2; simp only at htr2; cases htr2
          · intro k hk htr2; simp only at htr2; cases htr2
        · have hN : expectNest s = rest.length := by
            simp [expectNest, hst, htop, htr]
          have hN1 : expectNest { s with transition := Transition.beforePopUp } =
              rest.length - 1 := by
            simp [expectNest, hst, htop]
          rw [hN, hN1]
          simp [evOk, Nat.one_le_iff_ne_zero, hz]
    | beforePopUp =>
        by_cases hfl : (opts.follow_links && s.ancestors.isEmpty) = true
        · have heq : stepCloseDir opts s top rest = (.panic, s) := by
            simp [stepCloseDir, hz, htr, hfl]
          rw [heq]
          exact h.countBound
        · cases rest with
          | nil => simp at hz
          | cons parent rest2 =>
              have heq : stepCloseDir opts s top (parent :: rest2) =
                  (.silent, { s with
                    states := (parent :: rest2),
                    ancestors := if opts.follow_links then s.ancestors.dropLast
                      else s.ancestors,
                    opened_count := top.on_drop s.opened_count,
                    transition := Transition.afterPopUp }) := by
                simp [stepCloseDir, hz, htr, hfl]
              rw [heq]
              have hparent : parent.position = InnerPosition.entry := by
                apply h.tailEntry
                rw [hst]
                simp
              have hcnt : (countOpen (parent :: rest2) : Int) ≤
                  top.on_drop s.opened_count := by
                have hx := h.cntLe
                rw [hst, countOpen_cons_int] at hx
                rw [DirState_on_drop_eq]
                omega
              constructor
              · refine ⟨?_, ?_, hcnt, ?_, ?_, ?_, ?_, ?_, ?_⟩
                · intro st hm
                  apply h.tailEntry
                  rw [hst]
                  simp only [List.tail_cons] at hm ⊢
                  exact List.mem_cons_of_mem _ hm
                · intro hr
                  have hempty := (h.rootPending hr).1
                  rw [hst] at hempty
                  cases hempty
                · intro htr2; simp only at htr2; cases htr2
                · intro htr2; simp only at htr2; cases htr2
                · intro htr2
                  show ((parent :: rest2).head?.map (fun st => st.position)) =
                    some InnerPosition.entry
                  simp [hparent]
                · intro htr2; simp only at htr2; cases htr2
                · intro k hk
                  have := h.maxLe k hk
                  have hb := openBit_nonneg top.content.rd
                  show top.on_drop s.opened_count ≤ (k : Int)
                  rw [DirState_on_drop_eq]
                  omega
                · intro k hk htr2; simp only at htr2; cases htr2
              · have hN : expectNest s = rest2.length := by
                  simp [expectNest, hst, htop, htr]
                have hN1 : expectNest { s with
                    states := (parent :: rest2),
                    ancestors := if opts.follow_links then s.ancestors.dropLast
                      else s.ancestors,
                    opened_count := top.on_drop s.opened_count,
                    transition := Transition.afterPopUp } = rest2.length := by
                  apply expectNest_notOpen _ parent rest2 rfl (Or.inl hparent)
                  intro hc
                  simp only at hc
                  cases hc
                rw [hN, hN1]
    | closeOldest => exact absurd htr hnco
    | beforePushDown =>
        have heq : stepCloseDir opts s top rest = (.panic, s) := by
          simp [stepCloseDir, hz, htr]
        rw [heq]
        exact h.countBound
    | afterPopUp =>
        have heq : stepCloseDir opts s top rest = (.panic, s) := by
          simp [stepCloseDir, hz, htr]
        rw [heq]
        exact h.countBound

end Walkdir2

namespace Walkdir2

theorem stepEntryDir_master (fs : Fs) (opts : Opts) (cp : CP)
    (sorter : Option DirContent.Cmp) (s : WalkState)
    (top : DirState) (rest : List DirState) (rec : DirRec) (flat : FlatDent)
    (h : MasterInv opts s) (hst : s.states = top :: rest)
    (htop : top.position = InnerPosition.entry) :
    StepOK opts s (stepEntryDir fs opts cp sorter s top rest rec flat) := by
  have htrbpu := top_entry_not_bpu opts s h top rest hst htop
  have hN : expectNest s = rest.length :=
    expectNest_notOpen s top rest hst (Or.inl htop) htrbpu
  cases htr : s.transition with
  | none =>
      have hMIco := MasterInv_setTransition opts s h top rest hst htop
        Transition.closeOldest ⟨(by intro hc; cases hc), (by intro hc; cases hc)⟩
      have hMIapu := MasterInv_setTransition opts s h top rest hst htop
        Transition.afterPopUp ⟨(by intro hc; cases hc), (by intro hc; cases hc)⟩
      have hENco : expectNest { s with transition := Transition.closeOldest } =
          rest.length :=
        expectNest_notOpen _ top rest hst (Or.inl htop)
          (by intro hc; simp only at hc; cases hc)
      have hENapu : expectNest { s with transition := Transition.afterPopUp } =
          rest.length :=
        expectNest_notOpen _ top rest hst (Or.inl htop)
          (by intro hc; simp only at hc; cases hc)
      simp only [stepEntryDir, htr]
      repeat' split
      all_goals first
        | exact ⟨h.cntLe, h.maxLe⟩
        | exact ⟨hMIapu, hENapu.trans hN.symm⟩
        | exact ⟨hMIco, hENco.trans hN.symm⟩
        | exact ⟨hMIapu, by rw [hN, hENapu]; simp [evOk]⟩
        | exact ⟨hMIco, by rw [hN, hENco]; simp [evOk]⟩
  | beforePushDown =>
      simp only [stepEntryDir, htr]
      cases hpd : push_dir_1 fs opts sorter s.root_device s.ancestors flat
          (rest.length + 1) s.opened_count with
      | none => exact ⟨h.cntLe, h.maxLe⟩
      | some r =>
          have hspec := push_dir_1_spec fs opts sorter s.root_device s.ancestors
            flat (rest.length + 1) s.opened_count r hpd
          cases r with
          | ok pr =>
              obtain ⟨⟨state, ancOpt⟩, c1⟩ := pr
              obtain ⟨hc1, hb1, hp1, hd1⟩ := hspec.1 state ancOpt c1 rfl
              refine ⟨?_, ?_⟩
              · refine ⟨?_, ?_, ?_, ?_, ?_, ?_, ?_, ?_, ?_⟩
                · intro st hm
                  simp only [List.tail_cons] at hm
                  rw [hst] at hm
                  rcases List.mem_cons.mp hm with hh | hh
                  · rw [hh]; exact htop
                  · exact h.tailEntry st (by rw [hst]; simpa using hh)
                · intro hr
                  have hempty := (h.rootPending hr).1
                  rw [hst] at hempty
                  cases hempty
                · show (countOpen (state :: s.states) : Int) ≤ c1
                  rw [countOpen_cons_int]
                  have := h.cntLe
                  omega
                · intro htr2; simp only at htr2; cases htr2
                · intro htr2; simp only at htr2; cases htr2
                · intro htr2; simp only at htr2; cases htr2
                · intro htr2; simp only at htr2; cases htr2
                · intro k hk
                  have := h.maxPush k hk htr
                  show c1 ≤ (k : Int)
                  omega
                · intro k hk htr2; simp only at htr2; cases htr2
              · show expectNest { s with
                    transition := Transition.none,
                    states := (state :: s.states),
                    ancestors := s.ancestors ++ ancOpt.toList,
                    opened_count := c1 } = expectNest s
                have hE := expectNest_open { s with
                    transition := Transition.none,
                    states := (state :: s.states),
                    ancestors := s.ancestors ++ ancOpt.toList,
                    opened_count := c1 } state s.states rfl hp1
                rw [hE, hN, hst]
                simp
          | error pr =>
              obtain ⟨e, c1⟩ := pr
              obtain ⟨hcl, hcu⟩ := hspec.2 e c1 rfl
              refine ⟨?_, ?_⟩
              · refine ⟨h.tailEntry, ?_, ?_, ?_, ?_, ?_, ?_, ?_, ?_⟩
                · intro hr
                  have hempty := (h.rootPending hr).1
                  rw [hst] at hempty
                  cases hempty
                · show (countOpen s.states : Int) ≤ c1
                  have := h.cntLe
                  omega
                · intro htr2; simp only at htr2; cases htr2
                · intro htr2; simp only at htr2; cases htr2
                · intro htr2
                  show headPos s = some InnerPosition.entry
                  rw [headPos, hst]
                  simp [htop]
                · intro htr2; simp only at htr2; cases htr2
                · intro k hk
                  have := h.maxPush k hk htr
                  show c1 ≤ (k : Int)
                  omega
                · intro k hk htr2; simp only at htr2; cases htr2
              · have hEN1 : expectNest { s with
                    transition := Transition.afterPopUp, opened_count := c1 } =
                    rest.length :=
                  expectNest_notOpen _ top rest hst (Or.inl htop)
                    (by intro hc; simp only at hc; cases hc)
                rw [hN, hEN1]
                simp [evOk]
  | afterPopUp =>
      obtain ⟨hc1, hble, hpos1, hdep1⟩ := DirState.next_position_facts fs opts
        (processDent fs opts s.root_device s.ancestors rest.length) top s.opened_count
      have hcnt : (countOpen rest : Int) + openBit top.content.rd ≤ s.opened_count := by
        have hx := h.cntLe; rw [hst, countOpen_cons_int] at hx; exact hx
      have hb0 := openBit_nonneg ((DirState.next_position fs opts
        (processDent fs opts s.root_device s.ancestors rest.length) top
          s.opened_count).1.content.rd)
      have hb1 := openBit_nonneg top.content.rd
      have hcnt1 : (countOpen ((DirState.next_position fs opts
          (processDent fs opts s.root_device s.ancestors rest.length) top
            s.opened_count).1 :: rest) : Int) ≤
          (DirState.next_position fs opts
            (processDent fs opts s.root_device s.ancestors rest.length) top
              s.opened_count).2 := by
        rw [countOpen_cons_int]; omega
      have hmax1 : ∀ k, opts.max_open = some k →
          (DirState.next_position fs opts
            (processDent fs opts s.root_device s.ancestors rest.length) top
              s.opened_count).2 ≤ (k : Int) := by
        intro k hk
        have := h.maxLe k hk
        omega
      have hMI := MasterInv_replaceTopToNone opts s h top rest hst _ _ hcnt1 hmax1
      have hEN : expectNest { s with
          transition := Transition.none,
          states := ((DirState.next_position fs opts (processDent fs opts s.root_device s.ancestors rest.length) top s.opened_count).1 :: rest),
          opened_count := (DirState.next_position fs opts (processDent fs opts s.root_device s.ancestors rest.length) top s.opened_count).2 } = rest.length := by
        apply expectNest_notOpen _ _ rest rfl hpos1
        intro hc
        simp only at hc
        cases hc
      simp only [stepEntryDir, htr]
      repeat' split
      all_goals first
        | exact ⟨hMI, hEN.trans hN.symm⟩
        | exact ⟨hMI, by rw [hN, hEN]; simp [evOk]⟩
  | beforePopUp =>
      simp only [stepEntryDir, htr]
      exact ⟨h.cntLe, h.maxLe⟩
  | closeOldest =>
      simp only [stepEntryDir, htr]
      exact ⟨h.cntLe, h.maxLe⟩

end Walkdir2

namespace Walkdir2

/-- A fresh, empty engine state (root consumed) keeps the invariant. -/
theorem MasterInv_emptyNone (opts : Opts) (s : WalkState)
    (hempty : s.states = []) (htrn : s.transition = Transition.none)
    (hc0 : s.opened_count = 0) :
    MasterInv opts { s with root := Option.none } := by
  refine ⟨?_, ?_, ?_, ?_, ?_, ?_, ?_, ?_, ?_⟩
  · intro st hm
    simp only [hempty] at hm
    simp at hm
  · intro hr; simp at hr
  · show (countOpen s.states : Int) ≤ s.opened_count
    rw [hempty, hc0]
    simp [countOpen]
  · intro htr2; simp only at htr2; rw [htrn] at htr2; cases htr2
  · intro htr2; simp only at htr2; rw [htrn] at htr2; cases htr2
  · intro htr2; simp only at htr2; rw [htrn] at htr2; cases htr2
  · intro htr2; simp only at htr2; rw [htrn] at htr2; cases htr2
  · intro k hk
    show s.opened_count ≤ (k : Int)
    rw [hc0]
    omega
  · intro k hk htr2; simp only at htr2; rw [htrn] at htr2; cases htr2

theorem step_master (fs : Fs) (opts : Opts) (cp : CP)
    (sorter : Option DirContent.Cmp) (s : WalkState) (h : MasterInv opts s) :
    StepOK opts s (step fs opts cp sorter s) := by
  cases hroot : s.root with
  | some root_path =>
      obtain ⟨hempty, htrn, hc0⟩ := h.rootPending (by rw [hroot]; rfl)
      have hN0 : expectNest s = 0 := by simp [expectNest, hempty]
      cases hfp : RawDent.from_path fs root_path with
      | error e0 =>
          have heq : step fs opts cp sorter s =
              (.yield (.errorEv 0 ⟨e0, 0⟩), { s with root := Option.none }) := by
            simp [step, hroot, walkInit, hfp]
          rw [heq]
          refine ⟨MasterInv_emptyNone opts s hempty htrn hc0, ?_⟩
          rw [hN0]
          have hE : expectNest { s with root := Option.none } = 0 := by
            simp [expectNest, hempty]
          rw [hE]
          simp [evOk]
      | ok root =>
          by_cases hsfs : opts.same_file_system = true
          · cases hdev : RawDent.device_num fs root with
            | error e0 =>
                have heq : step fs opts cp sorter s =
                    (.yield (.errorEv 0 ⟨e0, 0⟩), { s with root := Option.none }) := by
                  simp [step, hroot, walkInit, hfp, hsfs, hdev]
                rw [heq]
                refine ⟨MasterInv_emptyNone opts s hempty htrn hc0, ?_⟩
                rw [hN0]
                have hE : expectNest { s with root := Option.none } = 0 := by
                  simp [expectNest, hempty]
                rw [hE]
                simp [evOk]
            | ok d =>
                have hnf := DirState.DirState_new_once_facts fs root 0 opts sorter
                  (processDent fs opts (some d) s.ancestors 0) s.opened_count
                rcases hr : DirState.new_once fs root 0 opts sorter
                    (processDent fs opts (some d) s.ancestors 0) s.opened_count
                  with ⟨st0, c0⟩
                rw [hr] at hnf
                simp only at hnf
                obtain ⟨hcc, hbit, hpos0, hdep0⟩ := hnf
                have heq : step fs opts cp sorter s =
                    (.silent, { s with
                      root := Option.none,
                      states := (st0 :: s.states),
                      opened_count := c0,
                      root_device := some d }) := by
                  simp only [step, hroot, walkInit, hfp, hsfs, if_true, hdev, hr]
                rw [heq]
                constructor
                · refine ⟨?_, ?_, ?_, ?_, ?_, ?_, ?_, ?_, ?_⟩
                  · intro st hm
                    simp only [List.tail_cons, hempty] at hm
                    simp at hm
                  · intro hr2; simp at hr2
                  · show (countOpen (st0 :: s.states) : Int) ≤ c0
                    rw [countOpen_cons_int, hempty, hcc, hc0, hbit]
                    simp [countOpen]
                  · intro htr2; simp only at htr2; rw [htrn] at htr2; cases htr2
                  · intro htr2; simp only at htr2; rw [htrn] at htr2; cases htr2
                  · intro htr2; simp only at htr2; rw [htrn] at htr2; cases htr2
                  · intro htr2; simp only at htr2; rw [htrn] at htr2; cases htr2
                  · intro k hk
                    show c0 ≤ (k : Int)
                    rw [hcc, hc0]
                    omega
                  · intro k hk htr2; simp only at htr2; rw [htrn] at htr2; cases htr2
                · rw [hN0]
                  have hE := expectNest_open { s with
                      root := Option.none,
                      states := (st0 :: s.states),
                      opened_count := c0,
                      root_device := some d } st0 s.states rfl hpos0
                  rw [hE, hempty]
                  simp
          · have hnf := DirState.DirState_new_once_facts fs root 0 opts sorter
              (processDent fs opts s.root_device s.ancestors 0) s.opened_count
            rcases hr : DirState.new_once fs root 0 opts sorter
                (processDent fs opts s.root_device s.ancestors 0) s.opened_count
              with ⟨st0, c0⟩
            rw [hr] at hnf
            simp only at hnf
            obtain ⟨hcc, hbit, hpos0, hdep0⟩ := hnf
            have heq : step fs opts cp sorter s =
                (.silent, { s with
                  root := Option.none,
                  states := (st0 :: s.states),
                  opened_count := c0 }) := by
              simp only [step, hroot, walkInit, hfp, hsfs, Bool.false_eq_true,
                if_false, hr]
            rw [heq]
            constructor
            · refine ⟨?_, ?_, ?_, ?_, ?_, ?_, ?_, ?_, ?_⟩
              · intro st hm
                simp only [List.tail_cons, hempty] at hm
                simp at hm
              · intro hr2; simp at hr2
              · show (countOpen (st0 :: s.states) : Int) ≤ c0
                rw [countOpen_cons_int, hempty, hcc, hc0, hbit]
                simp [countOpen]
              · intro htr2; simp only at htr2; rw [htrn] at htr2; cases htr2
              · intro htr2; simp only at htr2; rw [htrn] at htr2; cases htr2
              · intro htr2; simp only at htr2; rw [htrn] at htr2; cases htr2
              · intro htr2; simp only at htr2; rw [htrn] at htr2; cases htr2
              · intro k hk
                show c0 ≤ (k : Int)
                rw [hcc, hc0]
                omega
              · intro k hk htr2; simp only at htr2; rw [htrn] at htr2; cases htr2
            · rw [hN0]
              have hE := expectNest_open { s with
                  root := Option.none,
                  states := (st0 :: s.states),
                  opened_count := c0 } st0 s.states rfl hpos0
              rw [hE, hempty]
              simp
  | none =>
      cases hst : s.states with
      | nil =>
          have heq : step fs opts cp sorter s = (.panic, s) := by
            simp [step, hroot, hst]
          rw [heq]
          exact h.countBound
      | cons top rest =>
          by_cases hco : s.transition = Transition.closeOldest
          · have htopE : top.position = InnerPosition.entry := by
              have hh := h.co hco
              rw [headPos, hst] at hh
              simp at hh
              exact hh
            cases hcm : check_max_open fs opts s.root_device s.ancestors s.states
                s.opened_count with
            | none =>
                rw [hst] at hcm
                have heq : step fs opts cp sorter s = (.panic, s) := by
                  simp [step, hroot, hst, hco, hcm]
                rw [heq]
                exact h.countBound
            | some pr =>
                obtain ⟨sts', c'⟩ := pr
                obtain ⟨hmap, hlen, hcle, hcle2, hmax⟩ := check_max_open_facts fs opts
                  s.root_device s.ancestors s.states s.opened_count h.cntLe sts' c' hcm
                rw [hst] at hcm
                have heq : step fs opts cp sorter s =
                    (.silent, { s with
                      states := sts',
                      transition := Transition.beforePushDown,
                      opened_count := c' }) := by
                  simp [step, hroot, hst, hco, hcm]
                rw [heq]
                cases hsts2 : sts' with
                | nil =>
                    exfalso
                    rw [hsts2, hst] at hlen
                    simp at hlen
                | cons top' rest' =>
                    rw [hsts2] at hmap hcle
                    rw [hsts2, hst] at hlen
                    rw [hst] at hmap
                    simp only [List.map_cons] at hmap
                    rw [List.cons.injEq] at hmap
                    obtain ⟨hpos', hmaprest⟩ := hmap
                    have htop' : top'.position = InnerPosition.entry := by
                      rw [hpos', htopE]
                    constructor
                    · refine ⟨?_, ?_, hcle, ?_, ?_, ?_, ?_, ?_, ?_⟩
                      · intro st hm
                        simp only [List.tail_cons] at hm
                        have hmm : st.position ∈ rest'.map (fun st => st.position) :=
                          List.mem_map_of_mem _ hm
                        rw [hmaprest] at hmm
                        obtain ⟨st2, hm2, hp2⟩ := List.mem_map.mp hmm
                        rw [← hp2]
                        exact h.tailEntry st2 (by rw [hst]; simpa using hm2)
                      · intro hr2
                        have hempty := (h.rootPending hr2).1
                        rw [hst] at hempty
                        cases hempty
                      · intro htr2; simp only at htr2; cases htr2
                      · intro htr2
                        show ((top' :: rest').head?.map (fun st => st.position)) =
                          some InnerPosition.entry
                        simp [htop']
                      · intro htr2; simp only at htr2; cases htr2
                      · intro htr2; simp only at htr2; cases htr2
                      · intro k hk
                        have := h.maxLe k hk
                        show c' ≤ (k : Int)
                        omega
                      · intro k hk htr2
                        show c' + 1 ≤ (k : Int)
                        exact hmax k hk
                    · have hE1 : expectNest { s with
                          states := (top' :: rest'),
                          transition := Transition.beforePushDown,
                          opened_count := c' } = rest'.length :=
                        expectNest_notOpen _ top' rest' rfl (Or.inl htop')
                          (by intro hc; simp only at hc; cases hc)
                      have hE0 : expectNest s = rest.length :=
                        expectNest_notOpen s top rest hst (Or.inl htopE)
                          (by intro hc; rw [hco] at hc; cases hc)
                      rw [hE1, hE0]
                      simp only [List.length_cons] at hlen
                      omega
          · cases htop : top.position with
            | openDir =>
                have heq : step fs opts cp sorter s =
                    stepOpenDir fs opts cp s top rest := by
                  simp [step, hroot, hst, hco, htop]
                rw [heq]
                exact stepOpenDir_master fs opts cp s top rest h hst htop
            | closeDir =>
                have heq : step fs opts cp sorter s =
                    stepCloseDir opts s top rest := by
                  simp [step, hroot, hst, hco, htop]
                rw [heq]
                exact stepCloseDir_master opts s top rest h hst htop hco
            | entry =>
                cases hcr : top.currentRec with
                | none =>
                    have heq : step fs opts cp sorter s = (.panic, s) := by
                      simp [step, hroot, hst, hco, htop, hcr]
                    rw [heq]
                    exact h.countBound
                | some rec =>
                    cases hfl : rec.flat with
                    | error err =>
                        have heq : step fs opts cp sorter s =
                            stepEntryError fs opts s top rest err := by
                          simp [step, hroot, hst, hco, htop, hcr, hfl]
                        rw [heq]
                        exact stepEntryError_master fs opts s top rest err h hst htop
                    | ok flat =>
                        by_cases hdir : flat.is_dir = true
                        · have heq : step fs opts cp sorter s =
                              stepEntryDir fs opts cp sorter s top rest rec flat := by
                            simp [step, hroot, hst, hco, htop, hcr, hfl, hdir]
                          rw [heq]
                          exact stepEntryDir_master fs opts cp sorter s top rest
                            rec flat h hst htop
                        · have heq : step fs opts cp sorter s =
                              stepEntryNonDir fs opts cp s top rest rec flat := by
                            simp [step, hroot, hst, hco, htop, hcr, hfl, hdir]
                          rw [heq]
                          exact stepEntryNonDir_master fs opts cp s top rest
                            rec flat h hst htop

end Walkdir2

namespace Walkdir2

theorem runAux_acc (fs : Fs) (opts : Opts) (cp : CP) (sorter : Option DirContent.Cmp) :
    ∀ (fuel : Nat) (s : WalkState) (acc : List Event),
    (runAux fs opts cp sorter fuel s acc).1 =
      acc ++ (runAux fs opts cp sorter fuel s []).1
    ∧ (runAux fs opts cp sorter fuel s acc).2 =
      (runAux fs opts cp sorter fuel s []).2 := by
  intro fuel
  induction fuel with
  | zero => intro s acc; simp [runAux]
  | succ n ih =>
      intro s acc
      rcases hstep : step fs opts cp sorter s with ⟨res, s1⟩
      cases res with
      | yield e =>
          have hL : runAux fs opts cp sorter (n + 1) s acc =
              runAux fs opts cp sorter n s1 (acc ++ [e]) := by
            simp only [runAux, hstep]
          have hR : runAux fs opts cp sorter (n + 1) s [] =
              runAux fs opts cp sorter n s1 [e] := by
            simp only [runAux, hstep, List.nil_append]
          rw [hL, hR]
          constructor
          · rw [(ih s1 (acc ++ [e])).1, (ih s1 [e]).1]
            simp
          · rw [(ih s1 (acc ++ [e])).2, (ih s1 [e]).2]
      | silent => simp only [runAux, hstep]; exact ih s1 acc
      | done => simp only [runAux, hstep]; simp
      | panic => simp only [runAux, hstep]; simp

theorem nestOk_append : ∀ (l1 : List Event) (n : Nat) (l2 : List Event),
    nestOk n (l1 ++ l2) = (nestOk n l1).bind (fun m => nestOk m l2) := by
  intro l1
  induction l1 with
  | nil => intro n l2; simp [nestOk]
  | cons e rest ih =>
      intro n l2
      cases hev : evOk n e with
      | none => simp [nestOk, hev]
      | some n1 => simp [nestOk, hev, ih]

theorem runAux_master (fs : Fs) (opts : Opts) (cp : CP)
    (sorter : Option DirContent.Cmp) :
    ∀ (fuel : Nat) (s : WalkState), MasterInv opts s →
    CountBound opts (runAux fs opts cp sorter fuel s []).2.2
    ∧ (∃ m, nestOk (expectNest s) (runAux fs opts cp sorter fuel s []).1 = some m)
    ∧ ((runAux fs opts cp sorter fuel s []).2.1 = Outcome.finished →
        nestOk (expectNest s) (runAux fs opts cp sorter fuel s []).1 = some 0) := by
  intro fuel
  induction fuel with
  | zero =>
      intro s h
      refine ⟨h.countBound, ⟨expectNest s, rfl⟩, ?_⟩
      intro hc
      simp [runAux] at hc
  | succ n ih =>
      intro s h
      have hS := step_master fs opts cp sorter s h
      rcases hstep : step fs opts cp sorter s with ⟨res, s1⟩
      rw [hstep] at hS
      cases res with
      | yield e =>
          obtain ⟨hMI, hev⟩ := hS
          obtain ⟨ihCB, ⟨m0, ihEx⟩, ihFin⟩ := ih s1 hMI
          have hacc := runAux_acc fs opts cp sorter n s1 [e]
          have htr : (runAux fs opts cp sorter (n + 1) s []).1 =
              [e] ++ (runAux fs opts cp sorter n s1 []).1 := by
            simp only [runAux, hstep]
            exact hacc.1
          have hout : (runAux fs opts cp sorter (n + 1) s []).2 =
              (runAux fs opts cp sorter n s1 []).2 := by
            simp only [runAux, hstep]
            exact hacc.2
          have hone : nestOk (expectNest s) [e] = some (expectNest s1) := by
            simp [nestOk, hev]
          refine ⟨?_, ?_, ?_⟩
          · rw [hout]; exact ihCB
          · rw [htr, nestOk_append, hone]
            exact ⟨m0, ihEx⟩
          · intro hfin
            rw [hout] at hfin
            rw [htr, nestOk_append, hone]
            exact ihFin hfin
      | silent =>
          obtain ⟨hMI, hEN⟩ := hS
          obtain ⟨ihCB, ihEx, ihFin⟩ := ih s1 hMI
          have htr : (runAux fs opts cp sorter (n + 1) s []).1 =
              (runAux fs opts cp sorter n s1 []).1 := by
            simp only [runAux, hstep]
          have hout : (runAux fs opts cp sorter (n + 1) s []).2 =
              (runAux fs opts cp sorter n s1 []).2 := by
            simp only [runAux, hstep]
          refine ⟨?_, ?_, ?_⟩
          · rw [hout]; exact ihCB
          · rw [htr, ← hEN]; exact ihEx
          · intro hfin
            rw [hout] at hfin
            rw [htr, ← hEN]
            exact ihFin hfin
      | done =>
          obtain ⟨hCB, hzero⟩ := hS
          have hall : runAux fs opts cp sorter (n + 1) s [] = ([], .finished, s1) := by
            simp [runAux, hstep]
          rw [hall]
          exact ⟨hCB, ⟨expectNest s, rfl⟩, fun _ => by simp [nestOk, hzero]⟩
      | panic =>
          have hall : runAux fs opts cp sorter (n + 1) s [] = ([], .panicked, s1) := by
            simp [runAux, hstep]
          rw [hall]
          refine ⟨hS, ⟨expectNest s, rfl⟩, ?_⟩
          intro hc
          simp at hc

theorem MasterInv_initial (opts : Opts) (root : Nat) :
    MasterInv opts (initialState root) := by
  refine ⟨?_, ?_, ?_, ?_, ?_, ?_, ?_, ?_, ?_⟩
  · intro st hm; simp [initialState] at hm
  · intro _; exact ⟨rfl, rfl, rfl⟩
  · simp [initialState, countOpen]
  · intro hc; simp [initialState] at hc
  · intro hc; simp [initialState] at hc
  · intro hc; simp [initialState] at hc
  · intro hc; simp [initialState] at hc
  · intro k hk; simp [initialState]
  · intro k hk hc; simp [initialState] at hc

theorem expectNest_initial (root : Nat) : expectNest (initialState root) = 0 := by
  simp [expectNest, initialState]

end Walkdir2

namespace Walkdir2

theorem nestOk_counts : ∀ (l : List Event) (n m : Nat),
    nestOk n l = some m → n + opensEv l = m + closesEv l := by
  intro l
  induction l with
  | nil =>
      intro n m h
      have hm : n = m := by simpa [nestOk] using h
      subst hm
      simp [opensEv, closesEv]
  | cons e rest ih =>
      intro n m h
      cases hev : evOk n e with
      | none =>
          simp only [nestOk, hev] at h
          exact Option.noConfusion h
      | some n1 =>
          simp only [nestOk, hev] at h
          have hrest := ih n1 m h
          cases e with
          | openDir d p =>
              simp only [evOk] at hev
              split at hev
              next hd =>
                  injection hev with hev
                  subst hev
                  simp only [opensEv, closesEv, List.countP_cons] at hrest ⊢
                  simp at hrest ⊢
                  omega
              next => cases hev
          | openDirWithContent d p c =>
              simp only [evOk] at hev
              split at hev
              next hd =>
                  injection hev with hev
                  subst hev
                  simp only [opensEv, closesEv, List.countP_cons] at hrest ⊢
                  simp at hrest ⊢
                  omega
              next => cases hev
          | closeDir d =>
              simp only [evOk] at hev
              split at hev
              next hd =>
                  injection hev with hev
                  subst hev
                  simp only [opensEv, closesEv, List.countP_cons] at hrest ⊢
                  simp at hrest ⊢
                  omega
              next => cases hev
          | entry d it =>
              simp only [evOk] at hev
              split at hev
              next hd =>
                  injection hev with hev
                  subst hev
                  simp only [opensEv, closesEv, List.countP_cons] at hrest ⊢
                  simp at hrest ⊢
                  omega
              next => cases hev
          | errorEv d er =>
              simp only [evOk] at hev
              split at hev
              next hd =>
                  injection hev with hev
                  subst hev
                  simp only [opensEv, closesEv, List.countP_cons] at hrest ⊢
                  simp at hrest ⊢
                  omega
              next => cases hev

theorem nestOk_of_append_left : ∀ (p q : List Event) (n m : Nat),
    nestOk n (p ++ q) = some m → ∃ m1, nestOk n p = some m1 := by
  intro p q n m h
  rw [nestOk_append] at h
  cases hp : nestOk n p with
  | none => rw [hp] at h; cases h
  | some m1 => exact ⟨m1, rfl⟩

theorem nestOk_minDepth : ∀ (l : List Event) (n m : Nat),
    nestOk n l = some m → ∀ e ∈ l, evMinDepth e := by
  intro l
  induction l with
  | nil => intro n m h e he; cases he
  | cons e0 rest ih =>
      intro n m h e he
      cases hev : evOk n e0 with
      | none =>
          simp only [nestOk, hev] at h
          exact Option.noConfusion h
      | some n1 =>
          simp only [nestOk, hev] at h
          rcases List.mem_cons.mp he with he0 | hrest
          · subst he0
            cases e with
            | openDir d p =>
                simp only [evOk] at hev
                split at hev
                next hd => show evMinDepth (.openDir d p); simp [evMinDepth]; omega
                next => cases hev
            | openDirWithContent d p c =>
                simp only [evOk] at hev
                split at hev
                next hd =>
                    show evMinDepth (.openDirWithContent d p c)
                    simp [evMinDepth]
                    omega
                next => cases hev
            | closeDir d =>
                simp only [evOk] at hev
                split at hev
                next hd => show evMinDepth (.closeDir d); simp [evMinDepth]; omega
                next => cases hev
            | entry d it => show evMinDepth (.entry d it); simp [evMinDepth]
            | errorEv d er => show evMinDepth (.errorEv d er); simp [evMinDepth]
          · exact ih n1 m h e hrest

/-- C1: every emitted stream obeys the depth-coherent bracket discipline
(`nestOk`): each Open* opens depth `n+1` from nesting `n`, each CloseDir
closes the currently open depth `n ≥ 1`, entries and errors sit exactly at
the current nesting depth, and a finished run returns to nesting 0 — hence
every traversed directory of depth ≥ 1 gets exactly one matching Open*
and CloseDir strictly enclosing its and its descendants' events, closes
never outnumber opens on any prefix, a finished run balances them exactly,
and no Open*/CloseDir is ever emitted for the root (depth 0). -/
theorem claim_C1 (fs : Fs) (opts : Opts) (cp : CP) (sorter : Option DirContent.Cmp)
    (root : Nat) (fuel : Nat) :
    (∃ m, nestOk 0 (run fs opts cp sorter root fuel).1 = some m
       ∧ opensEv (run fs opts cp sorter root fuel).1 =
           m + closesEv (run fs opts cp sorter root fuel).1)
    ∧ ((run fs opts cp sorter root fuel).2.1 = Outcome.finished →
        nestOk 0 (run fs opts cp sorter root fuel).1 = some 0
        ∧ opensEv (run fs opts cp sorter root fuel).1 =
            closesEv (run fs opts cp sorter root fuel).1)
    ∧ (∀ p q, (run fs opts cp sorter root fuel).1 = p ++ q →
        closesEv p ≤ opensEv p)
    ∧ (∀ e, e ∈ (run fs opts cp sorter root fuel).1 → evMinDepth e) := by
  have hm := runAux_master fs opts cp sorter fuel (initialState root)
    (MasterInv_initial opts root)
  rw [expectNest_initial] at hm
  obtain ⟨hCB, ⟨m, hEx⟩, hFin⟩ := hm
  have hrun : run fs opts cp sorter root fuel =
      runAux fs opts cp sorter fuel (initialState root) [] := rfl
  rw [hrun]
  refine ⟨⟨m, hEx, ?_⟩, ?_, ?_, ?_⟩
  · have := nestOk_counts _ 0 m hEx
    omega
  · intro hfin
    have hz := hFin hfin
    refine ⟨hz, ?_⟩
    have := nestOk_counts _ 0 0 hz
    omega
  · intro p q hpq
    rw [hpq] at hEx
    obtain ⟨m1, hp⟩ := nestOk_of_append_left p q 0 m hEx
    have := nestOk_counts p 0 m1 hp
    omega
  · exact nestOk_minDepth _ 0 m hEx

end Walkdir2

namespace Walkdir2

theorem applyOp_exact (fs : Fs) (op : RdOp) (rd : ReadDir) (c : Int) :
    c - (applyOp fs op (rd, c)).2 = openBit rd - openBit (applyOp fs op (rd, c)).1
    ∧ openBit (applyOp fs op (rd, c)).1 ≤ openBit rd := by
  cases op with
  | next =>
      cases rd with
      | once item => simp [applyOp, ReadDir.next, openBit, ReadDir.is_open]
      | opened l =>
          cases l with
          | nil => simp [applyOp, ReadDir.next, openBit, ReadDir.is_open]
          | cons a rest => simp [applyOp, ReadDir.next, openBit, ReadDir.is_open]
      | closed => simp [applyOp, ReadDir.next, openBit, ReadDir.is_open]
      | rderror e => simp [applyOp, ReadDir.next, openBit, ReadDir.is_open]
  | collect p =>
      cases rd <;> simp [applyOp, ReadDir.collect_all, openBit, ReadDir.is_open]
  | drop =>
      cases rd <;> simp [applyOp, ReadDir.on_drop, openBit, ReadDir.is_open]

theorem applyOps_exact (fs : Fs) : ∀ (ops : List RdOp) (rd : ReadDir) (c : Int),
    c - (applyOps fs ops (rd, c)).2 =
      openBit rd - openBit (applyOps fs ops (rd, c)).1
    ∧ openBit (applyOps fs ops (rd, c)).1 ≤ openBit rd := by
  intro ops
  induction ops with
  | nil => intro rd c; simp [applyOps]
  | cons op rest ih =>
      intro rd c
      have h1 := applyOp_exact fs op rd c
      rcases hop : applyOp fs op (rd, c) with ⟨rd1, c1⟩
      rw [hop] at h1
      simp only at h1
      have h2 := ih rd1 c1
      simp only [applyOps, hop]
      exact ⟨by omega, by omega⟩

/-- C9: over any sequence of handle operations (`next`, `collect_all`, the
drop hook) the open-handle counter of one `ReadDir` handle is decremented
at most once in total — the Opened-to-Closed transition and `on_drop` never
both fire for the same handle — and a handle that is not Opened never
decrements it; consequently, in every engine run the counter stays at least
the number of Opened handles on the stack and never goes below zero. -/
theorem claim_C9 (fs : Fs) (ops : List RdOp) (rd : ReadDir) (c : Int)
    (opts : Opts) (cp : CP) (sorter : Option DirContent.Cmp) (root fuel : Nat) :
    (c - 1 ≤ (applyOps fs ops (rd, c)).2
      ∧ (applyOps fs ops (rd, c)).2 ≤ c
      ∧ (rd.is_open = false → (applyOps fs ops (rd, c)).2 = c)
      ∧ c - (applyOps fs ops (rd, c)).2 =
          openBit rd - openBit (applyOps fs ops (rd, c)).1)
    ∧ (0 ≤ ((run fs opts cp sorter root fuel).2.2).opened_count
      ∧ (countOpen ((run fs opts cp sorter root fuel).2.2).states : Int) ≤
          ((run fs opts cp sorter root fuel).2.2).opened_count) := by
  constructor
  · have h := applyOps_exact fs ops rd c
    have hb1 := openBit_nonneg rd
    have hb2 := openBit_le_one rd
    have hb3 := openBit_nonneg (applyOps fs ops (rd, c)).1
    refine ⟨by omega, by omega, ?_, h.1⟩
    intro hop
    have hz : openBit rd = 0 := (openBit_eq_zero rd).mpr hop
    omega
  · have hm := runAux_master fs opts cp sorter fuel (initialState root)
      (MasterInv_initial opts root)
    obtain ⟨⟨hcle, hmax⟩, -, -⟩ := hm
    have hrun : run fs opts cp sorter root fuel =
        runAux fs opts cp sorter fuel (initialState root) [] := rfl
    rw [hrun]
    exact ⟨le_trans (Int.natCast_nonneg _) hcle, hcle⟩

/-- C2: with `max_open = K > 0` the counter (and hence the number of Opened
handles on the stack) never exceeds `K` at any observation point; when a
descent finds the budget saturated (`count = K`), `check_max_open` drains:
it picks the last still-open state of the model list (the source's
shallowest), drains its handle to memory via `collect_all` — appending all
unread entries to `content` and closing the handle — and decrements the
counter by exactly one; if no handle is open the scan panics
(`drainAux = none` exactly when every handle is non-Opened). -/
theorem claim_C2 (fs : Fs) (opts : Opts) (cp : CP) (sorter : Option DirContent.Cmp)
    (root fuel : Nat) (k : Nat) (rdv : Option Nat) (anc : List Ancestor)
    (sts : List DirState) (c : Int) :
    (opts.max_open = some k →
        ((run fs opts cp sorter root fuel).2.2).opened_count ≤ (k : Int)
        ∧ (countOpen ((run fs opts cp sorter root fuel).2.2).states : Int) ≤ (k : Int))
    ∧ (opts.max_open = some k → c = (k : Int) → 0 < c →
        check_max_open fs opts rdv anc sts c = drainAux fs opts rdv anc sts c)
    ∧ (drainAux fs opts rdv anc sts c = Option.none ↔
        ∀ st ∈ sts, st.is_open = false)
    ∧ (∀ sts' c', drainAux fs opts rdv anc sts c = some (sts', c') →
        ∃ i st, sts.get? i = some st ∧ st.is_open = true
          ∧ (∀ j st2, i < j → sts.get? j = some st2 → st2.is_open = false)
          ∧ sts' = sts.set i
              (DirState.load_all fs opts (processDent fs opts rdv anc st.depth)
                st c).2.1
          ∧ c' = c - 1
          ∧ (DirState.load_all fs opts (processDent fs opts rdv anc st.depth)
                st c).2.1.content.content
              = st.content.content ++ DirContent.processedList fs opts
                  (processDent fs opts rdv anc st.depth) st.content.rd
          ∧ openBit (DirState.load_all fs opts
              (processDent fs opts rdv anc st.depth) st c).2.1.content.rd = 0
          ∧ (countOpen sts' : Int) = (countOpen sts : Int) - 1) := by
  refine ⟨?_, ?_, drainAux_none_iff fs opts rdv anc sts c, ?_⟩
  · intro hk
    have hm := runAux_master fs opts cp sorter fuel (initialState root)
      (MasterInv_initial opts root)
    obtain ⟨⟨hcle, hmax⟩, -, -⟩ := hm
    have hrun : run fs opts cp sorter root fuel =
        runAux fs opts cp sorter fuel (initialState root) [] := rfl
    rw [hrun]
    have hk2 := hmax k hk
    exact ⟨hk2, le_trans hcle hk2⟩
  · intro hk hc hpos
    simp only [check_max_open, hk]
    rw [if_neg (by omega), if_neg (by omega), if_neg (by omega)]
  · intro sts' c' h
    obtain ⟨i, st, hget, hopen, hafter, hset, hc'⟩ :=
      drainAux_some_spec fs opts rdv anc sts c sts' c' h
    obtain ⟨hcfacts, hcount, hmap, hlen⟩ := drainAux_facts fs opts rdv anc sts c sts' c' h
    have hl := DirState.DirState_load_all_facts fs opts
      (processDent fs opts rdv anc st.depth) st c
    refine ⟨i, st, hget, hopen, hafter, hset, by omega, hl.2.2.2.2, hl.2.1, hcount⟩

end Walkdir2
